import Mathlib

/-!
Verification of the network-topology analysis tool (networktopology.py).

The source keeps a registry of devices (a dict from identifier to type) and a
list of weighted links, builds an undirected graph `G` and a directed mirror
`G_dir` from them, and classifies the topology by a chain of structural tests
(Star, Ring, Full Mesh, Hybrid fallback).  This file embeds the registry
operations, the graph construction (networkx `Graph` / `DiGraph` semantics:
edge sets are sets, re-adding an edge overwrites its weight), the degree
computations, and the classification chain, and proves/refutes the frozen
claims about them.
-/

/-! ## Definitions: the embedding of the source, the shaped test graphs, and
the operations modelled from the spec (MST, TSP tour) -/

/-- A physical link as stored in `st.session_state.links`:
`{'u': src, 'v': dst, 'w': weight}`. -/
structure Link where
  u : String
  v : String
  w : Nat
deriving DecidableEq, Repr

/-- The session state: `st.session_state.nodes` (a dict from device id to
device type, modelled as an insertion-ordered association list) and
`st.session_state.links`. -/
structure AppState where
  nodes : List (String × String)
  links : List Link
deriving DecidableEq, Repr

/-- `st.session_state.nodes[n_id] = n_type`: python dict assignment keeps the
key position on overwrite, appends a new key at the end. -/
def dictInsert (reg : List (String × String)) (id t : String) :
    List (String × String) :=
  if reg.any (fun p => p.1 == id) then
    reg.map (fun p => if p.1 == id then (id, t) else p)
  else
    reg ++ [(id, t)]

/-- The Add Device handler (sidebar form `node_input`). -/
def addDevice (s : AppState) (id t : String) : AppState :=
  { s with nodes := dictInsert s.nodes id t }

/-- The Establish Link handler (sidebar form `link_input`): appends the link
only when `src != dst`; the returned Bool records whether the success path
(`st.session_state.links.append(...)` followed by `st.rerun()`) executed.
No error of any kind is raised on the other branch. -/
def establishLink (s : AppState) (src dst : String) (w : Nat) :
    AppState × Bool :=
  if src ≠ dst then
    ({ s with links := s.links ++ [{ u := src, v := dst, w := w }] }, true)
  else
    (s, false)

/-- The Reset All Data handler: `st.session_state.nodes, st.session_state.links = {}, []`. -/
def resetState : AppState := { nodes := [], links := [] }

/-- Two links join the same unordered pair of endpoints
(`G.add_edge` identifies `(u,v)` with `(v,u)`). -/
def sameEnds (a b : Link) : Bool :=
  (a.u == b.u && a.v == b.v) || (a.u == b.v && a.v == b.u)

/-- Two links join the same ordered pair of endpoints
(`G_dir.add_edge` keys on the ordered pair). -/
def sameDir (a b : Link) : Bool :=
  a.u == b.u && a.v == b.v

/-- `G.add_edge(u, v, weight=w)`: if the unordered pair is already present the
stored edge keeps its orientation and its weight is overwritten; otherwise the
edge is appended. -/
def addEdge (es : List Link) (l : Link) : List Link :=
  if es.any (fun e => sameEnds e l) then
    es.map (fun e => if sameEnds e l then { e with w := l.w } else e)
  else
    es ++ [l]

/-- `G_dir.add_edge(u, v, weight=w)`: keyed on the ordered pair. -/
def addEdgeDir (es : List Link) (l : Link) : List Link :=
  if es.any (fun e => sameDir e l) then
    es.map (fun e => if sameDir e l then { e with w := l.w } else e)
  else
    es ++ [l]

/-- The edge set of the undirected graph `G` built by the
`for link in st.session_state.links: G.add_edge(...)` loop. -/
def buildG (links : List Link) : List Link :=
  links.foldl addEdge []

/-- The edge set of the directed mirror graph `G_dir`. -/
def buildGdir (links : List Link) : List Link :=
  links.foldl addEdgeDir []

/-- networkx node insertion: adding an already-present node is a no-op. -/
def insertNew (ns : List String) (x : String) : List String :=
  if x ∈ ns then ns else ns ++ [x]

/-- The node list of `G`: the registry keys (added by the
`for n, t in st.session_state.nodes.items(): G.add_node(n, ...)` loop),
followed by any link endpoints not already present (added by `G.add_edge`). -/
def graphNodes (reg : List (String × String)) (links : List Link) :
    List String :=
  links.foldl (fun acc l => insertNew (insertNew acc l.u) l.v)
    (reg.map Prod.fst)

/-- `G.degree(x)` for the undirected graph: the number of incident edges,
counting a self-loop twice (networkx convention). -/
def degU (es : List Link) (x : String) : Nat :=
  (es.filter (fun e => e.u == x || e.v == x)).length
    + (es.filter (fun e => e.u == x && e.v == x)).length

/-- `G_dir.in_degree(x)`. -/
def inDeg (es : List Link) (x : String) : Nat :=
  (es.filter (fun e => e.v == x)).length

/-- `G_dir.out_degree(x)`. -/
def outDeg (es : List Link) (x : String) : Nat :=
  (es.filter (fun e => e.u == x)).length

/-- `max(degrees.values()) if degrees else 0`. -/
def maxDeg (ns : List String) (es : List Link) : Nat :=
  (ns.map (degU es)).foldr max 0

/-- The classification chain of the intelligence report: returns the
`(topo, justify)` pair.  The Star test is
`any(t == "Switch" for t in st.session_state.nodes.values()) and max_deg == n-1`
(python integer arithmetic, hence the `Int` cast: for `n = 0` the right side is
`-1`); the Ring test is `n >= 3 and all(d == 2 ...)`; the Full Mesh test is
`e == n*(n-1)/2` (exact, since `n*(n-1)` is even). -/
def classifyTopology (reg : List (String × String)) (links : List Link) :
    String × String :=
  let es := buildG links
  let ns := graphNodes reg links
  let n := ns.length
  let e := es.length
  let degs := ns.map (degU es)
  let max_deg := degs.foldr max 0
  if reg.any (fun p => p.2 == "Switch") && ((max_deg : Int) == (n : Int) - 1) then
    ("Star Topology",
     s!"Justification: A central Hub (Switch) connects to all other nodes. Center degree = {max_deg} (N-1).")
  else if decide (3 ≤ n) && degs.all (fun d => d == 2) then
    ("Ring Topology",
     "Justification: Every node has exactly 2 connections, forming a closed cycle with no endpoints.")
  else if e == n * (n - 1) / 2 then
    ("Full Mesh Topology",
     s!"Justification: Every node is directly linked to all others. Total links {e} = N(N-1)/2.")
  else
    ("Hybrid / Custom",
     "The connection pattern is irregular and does not follow a fixed geometric model.")

/-- Star-shaped link list: a hub joined to each leaf. -/
def starLinks (hub : String) (leaves : List String) (w : Nat) : List Link :=
  leaves.map (fun y => { u := hub, v := y, w := w })

/-- Path-shaped link list: consecutive elements joined. -/
def pathLinks : List String → Nat → List Link
  | [], _ => []
  | [_], _ => []
  | a :: b :: r, w => { u := a, v := b, w := w } :: pathLinks (b :: r) w

/-- Cycle-shaped link list: the path links plus a closing edge from the last
element back to the first (empty for fewer than two elements). -/
def cycleLinks (l : List String) (w : Nat) : List Link :=
  pathLinks l w ++
    (match l with
     | [] => []
     | [_] => []
     | x :: xs => [{ u := xs.getLastD x, v := x, w := w }])

/-- Complete link list: every unordered pair of elements joined once. -/
def completeLinks : List String → Nat → List Link
  | [], _ => []
  | x :: xs, w => xs.map (fun y => { u := x, v := y, w := w }) ++ completeLinks xs w

/-- The Star branch condition of `classifyTopology`. -/
def starCond (reg : List (String × String)) (links : List Link) : Bool :=
  reg.any (fun p => p.2 == "Switch") &&
    ((maxDeg (graphNodes reg links) (buildG links) : Int) ==
      ((graphNodes reg links).length : Int) - 1)

/-- The Ring branch condition of `classifyTopology`. -/
def ringCond (reg : List (String × String)) (links : List Link) : Bool :=
  decide (3 ≤ (graphNodes reg links).length) &&
    ((graphNodes reg links).map (degU (buildG links))).all (fun d => d == 2)

/-- The Full Mesh branch condition of `classifyTopology`. -/
def meshCond (reg : List (String × String)) (links : List Link) : Bool :=
  (buildG links).length ==
    (graphNodes reg links).length * ((graphNodes reg links).length - 1) / 2

/-- Invariant of the session registry: every stored link has weight at least 1
and both endpoints registered as devices. -/
def RegInv (s : AppState) : Prop :=
  ∀ l ∈ s.links,
    1 ≤ l.w ∧ l.u ∈ s.nodes.map Prod.fst ∧ l.v ∈ s.nodes.map Prod.fst

/-- No two stored links join the same pair of endpoints in opposite
orientations (this also excludes self-links, taking the same link twice). -/
def noRev (links : List Link) : Prop :=
  ∀ l1 ∈ links, ∀ l2 ∈ links, ¬(l1.u = l2.v ∧ l1.v = l2.u)

/-- Adjacency of two nodes in an edge list (either orientation). -/
def adjB (es : List Link) (x y : String) : Bool :=
  es.any (fun e => (e.u == x && e.v == y) || (e.u == y && e.v == x))

/-- Adjacency, propositionally. -/
def Adj (es : List Link) (x y : String) : Prop :=
  ∃ e ∈ es, (e.u = x ∧ e.v = y) ∨ (e.u = y ∧ e.v = x)

/-- Reachability: the reflexive-transitive closure of adjacency. -/
def Reach (es : List Link) : String → String → Prop :=
  Relation.ReflTransGen (Adj es)

/-- All pairs of listed nodes are mutually reachable. -/
def ConnectedOn (ns : List String) (es : List Link) : Prop :=
  ∀ x ∈ ns, ∀ y ∈ ns, Reach es x y

/-- Nodes adjacent to some element of `S`. -/
def nbors (es : List Link) (S : List String) : List String :=
  es.foldr (fun e acc =>
    (if e.u ∈ S then [e.v] else []) ++ (if e.v ∈ S then [e.u] else []) ++ acc) []

/-- One closure step: add the unseen neighbours of `S`. -/
def stepCl (es : List Link) (S : List String) : List String :=
  S ++ ((nbors es S).dedup.filter (fun z => decide (z ∉ S)))

/-- Iterated closure with explicit fuel. -/
def closureN (es : List Link) : Nat → List String → List String
  | 0, S => S
  | k + 1, S => closureN es k (stepCl es S)

/-- Executable reachability: `2 * |es| + 1` closure steps always saturate. -/
def reachB (es : List Link) (x y : String) : Bool :=
  y ∈ closureN es (2 * es.length + 1) [x]

/-- Executable connectivity over a node list. -/
def connectedB (ns : List String) (es : List Link) : Bool :=
  ns.all (fun x => ns.all (fun y => reachB es x y))

/-- The endpoints of an edge list, with multiplicity. -/
def endsList (es : List Link) : List String :=
  es.foldr (fun e acc => e.u :: e.v :: acc) []

/-- Total cost of a set of edges. -/
def treeCost (t : List Link) : Nat := (t.map Link.w).sum

/-- Decides whether `t` spans `ns` as a tree: connected with N-1 edges. -/
def isSpanningTreeB (ns : List String) (t : List Link) : Bool :=
  connectedB ns t && (t.length + 1 == ns.length)

/-- Leftmost minimum of a list under a cost function. -/
def pickMin {α : Type} (f : α → Nat) : List α → Option α
  | [] => none
  | x :: xs => some (xs.foldl (fun b y => if f y < f b then y else b) x)

/-- Modelled from the spec: the repository source contains no
minimum-spanning-tree code (section 4.3 of the specification is its only
description: `minimumSpanningTree(graph) -> (treeEdges, totalCost)`, minimal
among spanning trees of a connected graph), so the operation is modelled from
that contract: among the sublists of the edge list that span the node list as
a tree, return a cost-minimal one together with its total cost. -/
def minimumSpanningTree (ns : List String) (es : List Link) :
    Option (List Link × Nat) :=
  (pickMin treeCost (es.sublists.filter (fun t => isSpanningTreeB ns t))).map
    (fun t => (t, treeCost t))

/-- `G[u][v]['weight']`: the stored weight of the edge joining `x` and `y`,
when present. -/
def weightOf (es : List Link) (x y : String) : Option Nat :=
  (es.find? (fun e => (e.u == x && e.v == y) || (e.u == y && e.v == x))).map
    Link.w

/-- `zip(path[:-1], path[1:])`: consecutive pairs of a node sequence. -/
def consecPairs (p : List String) : List (String × String) := p.zip p.tail

/-- `sum(G[u][v]['weight'] for u, v in zip(tsp_path[:-1], tsp_path[1:]))`:
the cost of a closed walk, `none` when some hop is not an edge. -/
def tourCost (es : List Link) (p : List String) : Option Nat :=
  ((consecPairs p).mapM (fun q => weightOf es q.1 q.2)).map (fun ws => ws.sum)

/-- The same sum with a default of 0 for missing edges (total version used to
select the tour; on genuine tours every hop is an edge and the two agree). -/
def tourCostD (es : List Link) (p : List String) : Nat :=
  ((consecPairs p).map (fun q => (weightOf es q.1 q.2).getD 0)).sum

/-- All ways to insert an element into a list. -/
def insertAll (x : String) : List String → List (List String)
  | [] => [[x]]
  | y :: ys => (x :: y :: ys) :: (insertAll x ys).map (fun r => y :: r)

/-- All permutations of a list (structurally recursive, so that concrete
instances evaluate by kernel reduction). -/
def perms : List String → List (List String)
  | [] => [[]]
  | x :: xs => (perms xs).flatMap (insertAll x)

/-- All Hamiltonian cycles of the graph: a permutation of the node list,
closed by returning to its first element, all of whose hops are edges. -/
def hamTours (ns : List String) (es : List Link) : List (List String) :=
  ((perms ns).map (fun q => q ++ q.take 1)).filter
    (fun p => (consecPairs p).all (fun q => adjB es q.1 q.2))

/-- Modelled from the spec: the tour computation is a call into an external
library (`approx.traveling_salesperson_problem`), whose code is not part of
this repository; section 4.4 of the specification states the contract — a
low-cost Hamiltonian cycle visiting every node exactly once and returning to
the start.  The model returns a cost-minimal Hamiltonian cycle when one
exists, with the cost computed exactly as the source computes it (sum of the
stored edge weights between consecutive tour nodes). -/
def computeTour (ns : List String) (es : List Link) :
    Option (List String × Nat) :=
  (pickMin (tourCostD es) (hamTours ns es)).map (fun p => (p, tourCostD es p))

/-! ## Theorems -/

theorem classify_fst (reg : List (String × String)) (links : List Link) :
    (classifyTopology reg links).1 =
      if starCond reg links then "Star Topology"
      else if ringCond reg links then "Ring Topology"
      else if meshCond reg links then "Full Mesh Topology"
      else "Hybrid / Custom" := by
  cases h1 : starCond reg links <;> cases h2 : ringCond reg links <;>
    cases h3 : meshCond reg links <;>
      simp only [classifyTopology, starCond, ringCond, meshCond, maxDeg] at h1 h2 h3 ⊢ <;>
        simp [h1, h2, h3]

theorem foldl_addEdge_append (ls : List Link) :
    ∀ acc : List Link,
      (∀ a ∈ acc, ∀ l ∈ ls, sameEnds a l = false) →
      ls.Pairwise (fun a b => sameEnds a b = false) →
      ls.foldl addEdge acc = acc ++ ls := by
  induction ls with
  | nil => intro acc _ _; simp
  | cons l rest ih =>
      intro acc hacc hp
      have hnone : acc.any (fun e => sameEnds e l) = false := by
        simp only [List.any_eq_false]
        intro a ha
        simp [hacc a ha l (by simp)]
      have hstep : addEdge acc l = acc ++ [l] := by
        simp [addEdge, hnone]
      have hacc2 : ∀ a ∈ acc ++ [l], ∀ l2 ∈ rest, sameEnds a l2 = false := by
        intro a ha l2 hl2
        rcases List.mem_append.1 ha with h | h
        · exact hacc a h l2 (by simp [hl2])
        · have : a = l := by simpa using h
          subst this
          exact (List.pairwise_cons.1 hp).1 l2 hl2
      have := ih (acc ++ [l]) hacc2 (List.pairwise_cons.1 hp).2
      simpa [hstep, List.append_assoc] using this

/-- When no two links join the same unordered pair, `buildG` keeps the link
list unchanged. -/
theorem buildG_of_pairwise (ls : List Link)
    (hp : ls.Pairwise (fun a b => sameEnds a b = false)) :
    buildG ls = ls := by
  simpa using foldl_addEdge_append ls [] (by intro a ha; simp at ha) hp

theorem graphNodes_of_mem (reg : List (String × String)) (links : List Link)
    (h : ∀ l ∈ links, l.u ∈ reg.map Prod.fst ∧ l.v ∈ reg.map Prod.fst) :
    graphNodes reg links = reg.map Prod.fst := by
  unfold graphNodes
  induction links with
  | nil => simp
  | cons l rest ih =>
      have hu := (h l (by simp)).1
      have hv := (h l (by simp)).2
      rw [List.foldl_cons]
      have hins : insertNew (insertNew (reg.map Prod.fst) l.u) l.v =
          reg.map Prod.fst := by
        simp [insertNew, hu, hv]
      rw [hins]
      exact ih (fun l2 hl2 => h l2 (by simp [hl2]))

theorem countP_or_disjoint (p q : Link → Bool) (es : List Link)
    (h : ∀ e ∈ es, ¬(p e = true ∧ q e = true)) :
    es.countP (fun e => p e || q e) = es.countP p + es.countP q := by
  induction es with
  | nil => simp
  | cons e rest ih =>
      have hrest := ih (fun e2 he2 => h e2 (by simp [he2]))
      by_cases hpq : p e = true ∧ q e = true
      · exact absurd hpq (h e (by simp))
      · cases hp : p e <;> cases hq : q e
        · simp [List.countP_cons, hp, hq, hrest]
        · simp [List.countP_cons, hp, hq, hrest] <;> omega
        · simp [List.countP_cons, hp, hq, hrest] <;> omega
        · exact absurd ⟨hp, hq⟩ hpq

/-- For a self-loop-free edge list the undirected degree is the number of
edges leaving `x` plus the number of edges entering `x`. -/
theorem degU_eq_counts (es : List Link) (x : String)
    (h : ∀ e ∈ es, e.u ≠ e.v) :
    degU es x = es.countP (fun e => e.u == x) + es.countP (fun e => e.v == x) := by
  have h0 : (es.filter (fun e => e.u == x && e.v == x)).length = 0 := by
    rw [List.length_eq_zero]
    rw [List.filter_eq_nil]
    intro e he
    have := h e he
    simp only [Bool.and_eq_true, beq_iff_eq, not_and]
    intro hu hv
    exact this (by rw [hu, hv])
  have h1 : (es.filter (fun e => e.u == x || e.v == x)).length =
      es.countP (fun e => e.u == x || e.v == x) := by
    simp [List.countP_eq_length_filter]
  rw [degU, h0, h1, Nat.add_zero]
  apply countP_or_disjoint
  intro e he hb
  exact h e he (by
    have hu := of_decide_eq_true (by simpa using hb.1)
    have hv := of_decide_eq_true (by simpa using hb.2)
    rw [hu, hv])

theorem le_foldr_max {d : Nat} {ds : List Nat} (h : d ∈ ds) :
    d ≤ ds.foldr max 0 := by
  induction ds with
  | nil => simp at h
  | cons a rest ih =>
      rcases List.mem_cons.1 h with rfl | h2
      · exact Nat.le_max_left _ _
      · exact le_trans (ih h2) (Nat.le_max_right _ _)

theorem foldr_max_le {m : Nat} {ds : List Nat} (h : ∀ d ∈ ds, d ≤ m) :
    ds.foldr max 0 ≤ m := by
  induction ds with
  | nil => simp
  | cons a rest ih =>
      simp only [List.foldr_cons, Nat.max_le]
      exact ⟨h a (by simp), ih (fun d hd => h d (by simp [hd]))⟩

theorem foldr_max_eq {m : Nat} {ds : List Nat} (hmem : m ∈ ds)
    (h : ∀ d ∈ ds, d ≤ m) : ds.foldr max 0 = m :=
  Nat.le_antisymm (foldr_max_le h) (le_foldr_max hmem)

theorem starLinks_pairwise (hub : String) (leaves : List String) (w : Nat)
    (hnm : hub ∉ leaves) (hnd : leaves.Nodup) :
    (starLinks hub leaves w).Pairwise (fun a b => sameEnds a b = false) := by
  unfold starLinks
  rw [List.pairwise_map]
  refine hnd.imp_of_mem ?_
  intro a b ha hb hne
  have hbh : hub ≠ b := fun h => hnm (h ▸ hb)
  simp [sameEnds, hne, hbh]

theorem degU_starLinks (hub : String) (leaves : List String) (w : Nat)
    (hnm : hub ∉ leaves) (z : String) :
    degU (starLinks hub leaves w) z =
      (if hub = z then leaves.length else 0) + leaves.count z := by
  have hself : ∀ e ∈ starLinks hub leaves w, e.u ≠ e.v := by
    intro e he
    rcases List.mem_map.1 he with ⟨y, hy, rfl⟩
    intro h
    have hh : hub = y := h
    exact hnm (hh ▸ hy)
  rw [degU_eq_counts _ _ hself]
  unfold starLinks
  rw [List.countP_map, List.countP_map]
  congr 1
  · by_cases hz : hub = z
    · subst hz
      simp [List.countP_eq_length]
    · rw [List.countP_eq_zero.2 (by intro y _; simpa using hz)]
      simp [hz]

theorem maxDeg_star (hub : String) (leaves : List String) (w : Nat)
    (hnm : hub ∉ leaves) (hnd : leaves.Nodup) (hne : leaves ≠ []) :
    maxDeg (hub :: leaves) (starLinks hub leaves w) = leaves.length := by
  unfold maxDeg
  apply foldr_max_eq
  · have : degU (starLinks hub leaves w) hub = leaves.length := by
      rw [degU_starLinks hub leaves w hnm hub]
      simp [List.count_eq_zero_of_not_mem hnm]
    exact List.mem_map.2 ⟨hub, by simp, this⟩
  · intro d hd
    rcases List.mem_map.1 hd with ⟨z, hz, rfl⟩
    rw [degU_starLinks hub leaves w hnm z]
    rcases List.mem_cons.1 hz with rfl | hzin
    · simp [List.count_eq_zero_of_not_mem hnm]
    · have h1 : hub ≠ z := fun h => hnm (h ▸ hzin)
      have h2 : leaves.count z = 1 := List.count_eq_one_of_mem hnd hzin
      have h3 : 0 < leaves.length := List.length_pos.2 hne
      simp [h1, h2]
      omega

theorem classify_star_iff (reg : List (String × String)) (links : List Link) :
    (classifyTopology reg links).1 = "Star Topology" ↔ starCond reg links = true := by
  rw [classify_fst]
  cases h1 : starCond reg links
  · cases h2 : ringCond reg links <;> cases h3 : meshCond reg links <;> simp
  · simp

theorem classify_ring_of (reg : List (String × String)) (links : List Link)
    (h1 : starCond reg links = false) (h2 : ringCond reg links = true) :
    (classifyTopology reg links).1 = "Ring Topology" := by
  rw [classify_fst, h1, h2]
  simp

theorem classify_mesh_of (reg : List (String × String)) (links : List Link)
    (h1 : starCond reg links = false) (h2 : ringCond reg links = false)
    (h3 : meshCond reg links = true) :
    (classifyTopology reg links).1 = "Full Mesh Topology" := by
  rw [classify_fst, h1, h2, h3]
  simp

theorem classify_hybrid_of (reg : List (String × String)) (links : List Link)
    (h1 : starCond reg links = false) (h2 : ringCond reg links = false)
    (h3 : meshCond reg links = false) :
    (classifyTopology reg links).1 = "Hybrid / Custom" := by
  rw [classify_fst, h1, h2, h3]
  simp

theorem buildG_starLinks (hub : String) (leaves : List String) (w : Nat)
    (hnm : hub ∉ leaves) (hnd : leaves.Nodup) :
    buildG (starLinks hub leaves w) = starLinks hub leaves w :=
  buildG_of_pairwise _ (starLinks_pairwise hub leaves w hnm hnd)

theorem graphNodes_starLinks (reg : List (String × String)) (hub : String)
    (leaves : List String) (w : Nat) (hkeys : reg.map Prod.fst = hub :: leaves) :
    graphNodes reg (starLinks hub leaves w) = hub :: leaves := by
  rw [← hkeys]
  apply graphNodes_of_mem
  intro l hl
  rcases List.mem_map.1 hl with ⟨y, hy, rfl⟩
  rw [hkeys]
  exact ⟨by simp, by simp [hy]⟩

/-- C1 counterexample: a star graph whose registry holds no Switch device
(one hub with the documented star degree signature: hub degree N-1 = 2, both
leaves degree 1) is classified "Hybrid / Custom", not "Star Topology"; and a
triangle with a Switch device is classified "Star Topology" although its
degree sequence (2, 2, 2) is not the star signature. -/
theorem C1_cex :
    (classifyTopology [("H", "PC"), ("L1", "PC"), ("L2", "PC")]
        (starLinks "H" ["L1", "L2"] 1)).1 = "Hybrid / Custom" ∧
    degU (buildG (starLinks "H" ["L1", "L2"] 1)) "H" = 2 ∧
    degU (buildG (starLinks "H" ["L1", "L2"] 1)) "L1" = 1 ∧
    degU (buildG (starLinks "H" ["L1", "L2"] 1)) "L2" = 1 ∧
    (graphNodes [("H", "PC"), ("L1", "PC"), ("L2", "PC")]
        (starLinks "H" ["L1", "L2"] 1)).length = 3 ∧
    (classifyTopology [("A", "Switch"), ("B", "PC"), ("C", "PC")]
        (completeLinks ["A", "B", "C"] 5)).1 = "Star Topology" ∧
    degU (buildG (completeLinks ["A", "B", "C"] 5)) "B" = 2 := by
  decide

/-- C1 (amended): the classifier returns the Star label exactly when some
registered device has type Switch and the maximum degree equals N-1 (it does
not require the other nodes to have degree 1); in particular a star graph
(hub joined to each leaf, no other edges) is classified Star whenever the
registry holds a Switch device. -/
theorem C1_amended :
    (∀ (reg : List (String × String)) (links : List Link),
      (classifyTopology reg links).1 = "Star Topology" ↔
        (reg.any (fun p => p.2 == "Switch") = true ∧
         (maxDeg (graphNodes reg links) (buildG links) : Int) =
           ((graphNodes reg links).length : Int) - 1)) ∧
    (∀ (reg : List (String × String)) (hub : String) (leaves : List String)
        (w : Nat),
      reg.map Prod.fst = hub :: leaves →
      (hub :: leaves).Nodup →
      leaves ≠ [] →
      reg.any (fun p => p.2 == "Switch") = true →
      (classifyTopology reg (starLinks hub leaves w)).1 = "Star Topology") := by
  constructor
  · intro reg links
    rw [classify_star_iff]
    unfold starCond
    rw [Bool.and_eq_true, beq_iff_eq]
  · intro reg hub leaves w hkeys hnd hne hsw
    have hnm : hub ∉ leaves := (List.nodup_cons.1 hnd).1
    have hndl : leaves.Nodup := (List.nodup_cons.1 hnd).2
    rw [classify_star_iff]
    unfold starCond
    rw [graphNodes_starLinks reg hub leaves w hkeys,
        buildG_starLinks hub leaves w hnm hndl,
        maxDeg_star hub leaves w hnm hndl hne]
    rw [Bool.and_eq_true, beq_iff_eq]
    refine ⟨hsw, ?_⟩
    simp

/-- C1 witness: the Star branch fires on a concrete 3-node star whose hub is
a Switch. -/
theorem C1_witness :
    ([("H", "Switch"), ("L1", "PC"), ("L2", "PC")].map Prod.fst =
        "H" :: ["L1", "L2"]) ∧
    ("H" :: ["L1", "L2"]).Nodup ∧
    (["L1", "L2"] : List String) ≠ [] ∧
    [("H", "Switch"), ("L1", "PC"), ("L2", "PC")].any
        (fun p => p.2 == "Switch") = true ∧
    (classifyTopology [("H", "Switch"), ("L1", "PC"), ("L2", "PC")]
        (starLinks "H" ["L1", "L2"] 1)).1 = "Star Topology" :=
  ⟨by decide, by decide, by decide, by decide,
   C1_amended.2 [("H", "Switch"), ("L1", "PC"), ("L2", "PC")] "H" ["L1", "L2"] 1
     (by decide) (by decide) (by decide) (by decide)⟩

theorem pathLinks_endpoints (w : Nat) :
    ∀ l : List String, ∀ e ∈ pathLinks l w, e.u ∈ l ∧ e.v ∈ l
  | [], e, he => by simp [pathLinks] at he
  | [_], e, he => by simp [pathLinks] at he
  | a :: b :: r, e, he => by
      rw [pathLinks] at he
      rcases List.mem_cons.1 he with rfl | h2
      · exact ⟨by simp, by simp⟩
      · have := pathLinks_endpoints w (b :: r) e h2
        exact ⟨List.mem_cons_of_mem a this.1, List.mem_cons_of_mem a this.2⟩

theorem pathLinks_wt (w : Nat) :
    ∀ l : List String, ∀ e ∈ pathLinks l w, e.w = w
  | [], e, he => by simp [pathLinks] at he
  | [_], e, he => by simp [pathLinks] at he
  | a :: b :: r, e, he => by
      rw [pathLinks] at he
      rcases List.mem_cons.1 he with rfl | h2
      · rfl
      · exact pathLinks_wt w (b :: r) e h2

theorem pathLinks_no_self (w : Nat) :
    ∀ l : List String, l.Nodup → ∀ e ∈ pathLinks l w, e.u ≠ e.v
  | [], _, e, he => by simp [pathLinks] at he
  | [_], _, e, he => by simp [pathLinks] at he
  | a :: b :: r, hnd, e, he => by
      rw [pathLinks] at he
      rcases List.mem_cons.1 he with rfl | h2
      · have : a ∉ b :: r := (List.nodup_cons.1 hnd).1
        intro h
        have hab : a = b := h
        exact this (hab ▸ List.mem_cons_self b r)
      · exact pathLinks_no_self w (b :: r) (List.nodup_cons.1 hnd).2 e h2

theorem pathLinks_pairwise (w : Nat) :
    ∀ l : List String, l.Nodup →
      (pathLinks l w).Pairwise (fun a b => sameEnds a b = false)
  | [], _ => by simp [pathLinks]
  | [_], _ => by simp [pathLinks]
  | a :: b :: r, hnd => by
      rw [pathLinks, List.pairwise_cons]
      refine ⟨?_, pathLinks_pairwise w (b :: r) (List.nodup_cons.1 hnd).2⟩
      intro e he
      have hmem := pathLinks_endpoints w (b :: r) e he
      have hna : a ∉ b :: r := (List.nodup_cons.1 hnd).1
      have h1 : a ≠ e.u := fun h => hna (h ▸ hmem.1)
      have h2 : a ≠ e.v := fun h => hna (h ▸ hmem.2)
      simp [sameEnds, h1, h2]

theorem pathLinks_ucount (w : Nat) (z : String) :
    ∀ l : List String,
      (pathLinks l w).countP (fun e => e.u == z) = l.dropLast.count z
  | [] => by simp [pathLinks]
  | [_] => by simp [pathLinks]
  | a :: b :: r => by
      rw [pathLinks, List.countP_cons]
      rw [pathLinks_ucount w z (b :: r)]
      have hdl : (a :: b :: r).dropLast = a :: (b :: r).dropLast := rfl
      rw [hdl]
      by_cases haz : a = z
      · simp [List.count_cons, haz]
      · simp [List.count_cons, haz, Ne.symm haz]

theorem pathLinks_vcount (w : Nat) (z : String) :
    ∀ l : List String,
      (pathLinks l w).countP (fun e => e.v == z) = l.tail.count z
  | [] => by simp [pathLinks]
  | [_] => by simp [pathLinks]
  | a :: b :: r => by
      rw [pathLinks, List.countP_cons]
      rw [pathLinks_vcount w z (b :: r)]
      by_cases hbz : b = z
      · simp [List.count_cons, hbz]
      · simp [List.count_cons, hbz, Ne.symm hbz]

theorem pathLinks_length (w : Nat) :
    ∀ l : List String, (pathLinks l w).length = l.length - 1
  | [] => by simp [pathLinks]
  | [_] => by simp [pathLinks]
  | a :: b :: r => by
      rw [pathLinks, List.length_cons, pathLinks_length w (b :: r)]
      simp

theorem getLastD_mem {α : Type} :
    ∀ (xs : List α) (d : α), xs ≠ [] → xs.getLastD d ∈ xs
  | [], _, h => absurd rfl h
  | [a], d, _ => by simp
  | a :: b :: r, d, _ => by
      have : (a :: b :: r).getLastD d = (b :: r).getLastD a := rfl
      rw [this]
      exact List.mem_cons_of_mem a (getLastD_mem (b :: r) a (by simp))

theorem count_dropLast_getLastD {z : String} :
    ∀ (l : List String) (d : String), l ≠ [] →
      l.dropLast.count z + (if l.getLastD d == z then 1 else 0) = l.count z
  | [], _, h => absurd rfl h
  | [a], d, _ => by
      by_cases haz : a = z <;> simp [List.count_cons, haz]
  | a :: b :: r, d, _ => by
      have h1 : (a :: b :: r).dropLast = a :: (b :: r).dropLast := rfl
      have h2 : (a :: b :: r).getLastD d = (b :: r).getLastD a := rfl
      rw [h1, h2]
      have ih := count_dropLast_getLastD (z := z) (b :: r) a (by simp)
      by_cases haz : a = z
      · simp only [List.count_cons, haz] at ih ⊢
        simp at ih ⊢
        omega
      · simp only [List.count_cons] at ih ⊢
        simp [haz, Ne.symm haz] at ih ⊢
        omega

theorem cycleLinks_expand (x y : String) (r : List String) (w : Nat) :
    cycleLinks (x :: y :: r) w =
      pathLinks (x :: y :: r) w ++ [{ u := (y :: r).getLastD x, v := x, w := w }] :=
  rfl

theorem cycleLinks_ucount (w : Nat) (z x y : String) (r : List String) :
    (cycleLinks (x :: y :: r) w).countP (fun e => e.u == z) =
      (x :: y :: r).count z := by
  rw [cycleLinks_expand, List.countP_append, pathLinks_ucount]
  have h2 : ((x :: y :: r).getLastD x) = ((y :: r).getLastD x) := rfl
  rw [← count_dropLast_getLastD (x :: y :: r) x (by simp), h2]
  simp [List.countP_cons]

theorem cycleLinks_vcount (w : Nat) (z x y : String) (r : List String) :
    (cycleLinks (x :: y :: r) w).countP (fun e => e.v == z) =
      (x :: y :: r).count z := by
  rw [cycleLinks_expand, List.countP_append, pathLinks_vcount]
  by_cases hxz : x = z
  · simp [List.countP_cons, List.count_cons, hxz]
  · simp [List.countP_cons, List.count_cons, hxz, Ne.symm hxz]

theorem cycleLinks_no_self (w : Nat) (x y : String) (r : List String)
    (hnd : (x :: y :: r).Nodup) :
    ∀ e ∈ cycleLinks (x :: y :: r) w, e.u ≠ e.v := by
  intro e he
  rw [cycleLinks_expand] at he
  rcases List.mem_append.1 he with h | h
  · exact pathLinks_no_self w (x :: y :: r) hnd e h
  · have he2 : e = { u := (y :: r).getLastD x, v := x, w := w } := by simpa using h
    subst he2
    have hmem : (y :: r).getLastD x ∈ y :: r := getLastD_mem (y :: r) x (by simp)
    have hx : x ∉ y :: r := (List.nodup_cons.1 hnd).1
    intro hc
    have hc2 : (y :: r).getLastD x = x := hc
    exact hx (hc2 ▸ hmem)

theorem degU_cycleLinks (w : Nat) (z x y : String) (r : List String)
    (hnd : (x :: y :: r).Nodup) (hz : z ∈ x :: y :: r) :
    degU (cycleLinks (x :: y :: r) w) z = 2 := by
  rw [degU_eq_counts _ _ (cycleLinks_no_self w x y r hnd),
      cycleLinks_ucount, cycleLinks_vcount,
      List.count_eq_one_of_mem hnd hz]

theorem cycleLinks_length (w : Nat) (x y : String) (r : List String) :
    (cycleLinks (x :: y :: r) w).length = (x :: y :: r).length := by
  rw [cycleLinks_expand, List.length_append, pathLinks_length]
  simp

theorem cycleLinks_endpoints (w : Nat) (x y : String) (r : List String) :
    ∀ e ∈ cycleLinks (x :: y :: r) w, e.u ∈ x :: y :: r ∧ e.v ∈ x :: y :: r := by
  intro e he
  rw [cycleLinks_expand] at he
  rcases List.mem_append.1 he with h | h
  · exact pathLinks_endpoints w (x :: y :: r) e h
  · have he2 : e = { u := (y :: r).getLastD x, v := x, w := w } := by simpa using h
    subst he2
    exact ⟨List.mem_cons_of_mem x (getLastD_mem (y :: r) x (by simp)), by simp⟩

theorem cycleLinks_pairwise (w : Nat) (x y : String) (r : List String)
    (hnd : (x :: y :: r).Nodup) (hr : r ≠ []) :
    (cycleLinks (x :: y :: r) w).Pairwise (fun a b => sameEnds a b = false) := by
  rw [cycleLinks_expand, List.pairwise_append]
  refine ⟨pathLinks_pairwise w (x :: y :: r) hnd, by simp, ?_⟩
  intro e he c hc
  have hc2 : c = { u := (y :: r).getLastD x, v := x, w := w } := by simpa using hc
  subst hc2
  have hlast : (y :: r).getLastD x = r.getLastD y := List.getLastD_cons x y r
  have hlmem : r.getLastD y ∈ r := getLastD_mem r y hr
  have hx : x ∉ y :: r := (List.nodup_cons.1 hnd).1
  have hxlast : x ≠ (y :: r).getLastD x := by
    rw [hlast]
    intro h
    exact hx (h ▸ List.mem_cons_of_mem y hlmem)
  rw [pathLinks] at he
  rcases List.mem_cons.1 he with rfl | h2
  · have hy : y ≠ (y :: r).getLastD x := by
      rw [hlast]
      intro h
      have hyr : y ∉ r := (List.nodup_cons.1 (List.nodup_cons.1 hnd).2).1
      exact hyr (h ▸ hlmem)
    simp only [List.getLastD_eq_getLast?] at hxlast hy
    simp [sameEnds, hxlast, hy]
  · have hmem := pathLinks_endpoints w (y :: r) e h2
    have h1 : e.u ≠ x := fun hq => hx (hq ▸ hmem.1)
    have h2v : e.v ≠ x := fun hq => hx (hq ▸ hmem.2)
    simp [sameEnds, h1, h2v]

theorem maxDeg_cycle (w : Nat) (x y : String) (r : List String)
    (hnd : (x :: y :: r).Nodup) :
    maxDeg (x :: y :: r) (cycleLinks (x :: y :: r) w) = 2 := by
  unfold maxDeg
  apply foldr_max_eq
  · exact List.mem_map.2 ⟨x, by simp, degU_cycleLinks w x x y r hnd (by simp)⟩
  · intro d hd
    rcases List.mem_map.1 hd with ⟨z, hz, rfl⟩
    rw [degU_cycleLinks w z x y r hnd hz]

/-- C3 counterexample: a 3-cycle (every node of degree exactly 2) whose
registry holds a Switch device is classified "Star Topology", not
"Ring Topology". -/
theorem C3_cex :
    (classifyTopology [("A", "Switch"), ("B", "PC"), ("C", "PC")]
        (cycleLinks ["A", "B", "C"] 5)).1 = "Star Topology" ∧
    degU (buildG (cycleLinks ["A", "B", "C"] 5)) "A" = 2 ∧
    degU (buildG (cycleLinks ["A", "B", "C"] 5)) "B" = 2 ∧
    degU (buildG (cycleLinks ["A", "B", "C"] 5)) "C" = 2 ∧
    (graphNodes [("A", "Switch"), ("B", "PC"), ("C", "PC")]
        (cycleLinks ["A", "B", "C"] 5)).length = 3 := by
  decide

/-- C3 (amended): a single cycle of length N ≥ 3 is classified Ring provided
the Star branch cannot fire first, i.e. provided the registry holds no Switch
device or N ≥ 4 (for N = 3 with a Switch the Star branch wins, since then
max degree 2 = N-1). -/
theorem C3_amended (reg : List (String × String)) (ids : List String) (w : Nat)
    (hkeys : reg.map Prod.fst = ids) (hnd : ids.Nodup) (h3 : 3 ≤ ids.length)
    (hsw : reg.any (fun p => p.2 == "Switch") = false ∨ 4 ≤ ids.length) :
    (classifyTopology reg (cycleLinks ids w)).1 = "Ring Topology" := by
  rcases ids with - | ⟨x, ids2⟩
  · simp at h3
  rcases ids2 with - | ⟨y, r⟩
  · simp at h3
  have hr : r ≠ [] := by
    intro h
    subst h
    simp at h3
  have hgn : graphNodes reg (cycleLinks (x :: y :: r) w) = x :: y :: r := by
    have hmem : ∀ l ∈ cycleLinks (x :: y :: r) w,
        l.u ∈ reg.map Prod.fst ∧ l.v ∈ reg.map Prod.fst := by
      intro l hl
      rw [hkeys]
      exact cycleLinks_endpoints w x y r l hl
    rw [graphNodes_of_mem reg _ hmem, hkeys]
  have hbg : buildG (cycleLinks (x :: y :: r) w) = cycleLinks (x :: y :: r) w :=
    buildG_of_pairwise _ (cycleLinks_pairwise w x y r hnd hr)
  apply classify_ring_of
  · unfold starCond
    rw [hgn, hbg, maxDeg_cycle w x y r hnd]
    rcases hsw with hsw | h4
    · rw [hsw, Bool.false_and]
    · have hne : (((2 : Nat) : Int) == ((x :: y :: r).length : Int) - 1) = false := by
        rw [beq_eq_false_iff_ne]
        intro hq
        have hlen : (4 : Int) ≤ ((x :: y :: r).length : Int) := by exact_mod_cast h4
        omega
      rw [hne, Bool.and_false]
  · unfold ringCond
    rw [hgn, hbg, Bool.and_eq_true]
    refine ⟨by simpa using h3, ?_⟩
    rw [List.all_eq_true]
    intro d hd
    rcases List.mem_map.1 hd with ⟨z, hz, rfl⟩
    rw [degU_cycleLinks w z x y r hnd hz]
    rfl

/-- C3 witness: a concrete 4-cycle containing a Switch device is classified
Ring (the Star branch cannot fire since max degree 2 differs from N-1 = 3). -/
theorem C3_witness :
    ([("A", "Switch"), ("B", "PC"), ("C", "PC"), ("D", "PC")].map Prod.fst =
        ["A", "B", "C", "D"]) ∧
    (["A", "B", "C", "D"] : List String).Nodup ∧
    3 ≤ (["A", "B", "C", "D"] : List String).length ∧
    4 ≤ (["A", "B", "C", "D"] : List String).length ∧
    (classifyTopology [("A", "Switch"), ("B", "PC"), ("C", "PC"), ("D", "PC")]
        (cycleLinks ["A", "B", "C", "D"] 1)).1 = "Ring Topology" :=
  ⟨by decide, by decide, by decide, by decide,
   C3_amended [("A", "Switch"), ("B", "PC"), ("C", "PC"), ("D", "PC")]
     ["A", "B", "C", "D"] 1 (by decide) (by decide) (by decide)
     (Or.inr (by decide))⟩

theorem completeLinks_endpoints (w : Nat) :
    ∀ l : List String, ∀ e ∈ completeLinks l w, e.u ∈ l ∧ e.v ∈ l
  | [], e, he => by simp [completeLinks] at he
  | x :: xs, e, he => by
      rw [completeLinks] at he
      rcases List.mem_append.1 he with h | h
      · rcases List.mem_map.1 h with ⟨y, hy, rfl⟩
        exact ⟨by simp, by simp [hy]⟩
      · have := completeLinks_endpoints w xs e h
        exact ⟨List.mem_cons_of_mem x this.1, List.mem_cons_of_mem x this.2⟩

theorem completeLinks_no_self (w : Nat) :
    ∀ l : List String, l.Nodup → ∀ e ∈ completeLinks l w, e.u ≠ e.v
  | [], _, e, he => by simp [completeLinks] at he
  | x :: xs, hnd, e, he => by
      rw [completeLinks] at he
      rcases List.mem_append.1 he with h | h
      · rcases List.mem_map.1 h with ⟨y, hy, rfl⟩
        intro hc
        have hxy : x = y := hc
        exact (List.nodup_cons.1 hnd).1 (hxy ▸ hy)
      · exact completeLinks_no_self w xs (List.nodup_cons.1 hnd).2 e h

theorem completeLinks_pairwise (w : Nat) :
    ∀ l : List String, l.Nodup →
      (completeLinks l w).Pairwise (fun a b => sameEnds a b = false)
  | [], _ => by simp [completeLinks]
  | x :: xs, hnd => by
      rw [completeLinks, List.pairwise_append]
      have hnm : x ∉ xs := (List.nodup_cons.1 hnd).1
      have hndx : xs.Nodup := (List.nodup_cons.1 hnd).2
      refine ⟨starLinks_pairwise x xs w hnm hndx, completeLinks_pairwise w xs hndx, ?_⟩
      intro a ha b hb
      rcases List.mem_map.1 ha with ⟨y, hy, rfl⟩
      have hmem := completeLinks_endpoints w xs b hb
      have h1 : x ≠ b.u := fun hq => hnm (hq ▸ hmem.1)
      have h2 : x ≠ b.v := fun hq => hnm (hq ▸ hmem.2)
      simp [sameEnds, h1, h2]

theorem countP_map_u (x z : String) (w : Nat) (xs : List String) :
    (xs.map (fun y => ({ u := x, v := y, w := w } : Link))).countP
        (fun e => e.u == z) = if x = z then xs.length else 0 := by
  induction xs with
  | nil => simp
  | cons y ys ih =>
      by_cases hxz : x = z <;>
        simp [List.countP_cons, ih, hxz]

theorem countP_map_v (x z : String) (w : Nat) (xs : List String) :
    (xs.map (fun y => ({ u := x, v := y, w := w } : Link))).countP
        (fun e => e.v == z) = xs.count z := by
  induction xs with
  | nil => simp
  | cons y ys ih =>
      by_cases hyz : y = z
      · simp [List.countP_cons, ih, List.count_cons, hyz]
      · simp [List.countP_cons, ih, List.count_cons, hyz, Ne.symm hyz]

theorem completeLinks_ucount_notmem (w : Nat) (z : String) :
    ∀ l : List String, z ∉ l →
      (completeLinks l w).countP (fun e => e.u == z) = 0 ∧
      (completeLinks l w).countP (fun e => e.v == z) = 0
  | [], _ => by simp [completeLinks]
  | x :: xs, hz => by
      have hzx : x ≠ z := fun hq => hz (by simp [hq])
      have hzxs : z ∉ xs := fun hq => hz (by simp [hq])
      have ih := completeLinks_ucount_notmem w z xs hzxs
      rw [completeLinks]
      constructor
      · rw [List.countP_append, countP_map_u, ih.1]
        simp [hzx]
      · rw [List.countP_append, countP_map_v, ih.2,
            List.count_eq_zero_of_not_mem hzxs]

theorem completeLinks_inc_mem (w : Nat) :
    ∀ l : List String, l.Nodup → ∀ z ∈ l,
      (completeLinks l w).countP (fun e => e.u == z) +
        (completeLinks l w).countP (fun e => e.v == z) = l.length - 1
  | [], _, z, hz => by simp at hz
  | x :: xs, hnd, z, hz => by
      have hnm : x ∉ xs := (List.nodup_cons.1 hnd).1
      have hndx : xs.Nodup := (List.nodup_cons.1 hnd).2
      rw [completeLinks, List.countP_append, List.countP_append,
          countP_map_u, countP_map_v]
      rcases List.mem_cons.1 hz with rfl | hzxs
      · have h3 := completeLinks_ucount_notmem w z xs hnm
        rw [h3.1, h3.2, List.count_eq_zero_of_not_mem hnm]
        simp
      · have hzx : x ≠ z := fun hq => hnm (hq ▸ hzxs)
        have ih := completeLinks_inc_mem w xs hndx z hzxs
        have hlen : 0 < xs.length := List.length_pos.2 (by
          intro hq
          subst hq
          simp at hzxs)
        rw [List.count_eq_one_of_mem hndx hzxs, if_neg hzx]
        simp only [List.length_cons]
        omega

theorem degU_completeLinks (w : Nat) (l : List String) (hnd : l.Nodup)
    (z : String) (hz : z ∈ l) :
    degU (completeLinks l w) z = l.length - 1 := by
  rw [degU_eq_counts _ _ (completeLinks_no_self w l hnd)]
  exact completeLinks_inc_mem w l hnd z hz

theorem completeLinks_length (w : Nat) :
    ∀ l : List String, 2 * (completeLinks l w).length = l.length * (l.length - 1)
  | [] => by simp [completeLinks]
  | x :: xs => by
      rw [completeLinks, List.length_append, List.length_map]
      have ih := completeLinks_length w xs
      have hlc : (x :: xs).length = xs.length + 1 := List.length_cons x xs
      rw [hlc, Nat.add_sub_cancel]
      rcases Nat.eq_zero_or_pos xs.length with hz | hp
      · rw [hz] at ih ⊢
        simp at ih
        simp [ih]
      · obtain ⟨p, hp2⟩ : ∃ p, xs.length = p + 1 :=
          ⟨xs.length - 1, (Nat.succ_pred_eq_of_pos hp).symm⟩
        rw [hp2] at ih ⊢
        rw [Nat.add_sub_cancel] at ih
        have hgoal : (p + 1 + 1) * (p + 1) = (p + 1) * p + 2 * (p + 1) := by ring
        rw [hgoal, ← ih]
        ring

/-- C2 counterexample: the spec scenario itself — devices {A,B,C} (no Switch)
with uniform-weight-5 links (A,B), (B,C), (A,C) is a complete graph on 3 nodes
(edge count 3 = N(N-1)/2, every degree 2), yet the classifier returns
"Ring Topology", because the Ring branch precedes the Full Mesh branch. -/
theorem C2_cex :
    (classifyTopology [("A", "PC"), ("B", "PC"), ("C", "PC")]
        [{ u := "A", v := "B", w := 5 }, { u := "B", v := "C", w := 5 },
         { u := "A", v := "C", w := 5 }]).1 = "Ring Topology" ∧
    (buildG [{ u := "A", v := "B", w := 5 }, { u := "B", v := "C", w := 5 },
        { u := "A", v := "C", w := 5 }]).length = 3 ∧
    degU (buildG [{ u := "A", v := "B", w := 5 }, { u := "B", v := "C", w := 5 },
        { u := "A", v := "C", w := 5 }]) "A" = 2 ∧
    degU (buildG [{ u := "A", v := "B", w := 5 }, { u := "B", v := "C", w := 5 },
        { u := "A", v := "C", w := 5 }]) "B" = 2 ∧
    degU (buildG [{ u := "A", v := "B", w := 5 }, { u := "B", v := "C", w := 5 },
        { u := "A", v := "C", w := 5 }]) "C" = 2 ∧
    (graphNodes [("A", "PC"), ("B", "PC"), ("C", "PC")]
        [{ u := "A", v := "B", w := 5 }, { u := "B", v := "C", w := 5 },
         { u := "A", v := "C", w := 5 }]).length = 3 := by
  decide

/-- C2 (amended): a complete graph on N nodes with uniform weight is
classified Full Mesh, and its edge count is N(N-1)/2, provided no registered
device is a Switch (else the Star branch fires, since max degree is always
N-1 in a complete graph) and N is 2 or at least 4 (for N = 3 the Ring branch
fires first, as every degree is 2). -/
theorem C2_amended (reg : List (String × String)) (ids : List String) (w : Nat)
    (hkeys : reg.map Prod.fst = ids) (hnd : ids.Nodup)
    (hn : ids.length = 2 ∨ 4 ≤ ids.length)
    (hsw : reg.any (fun p => p.2 == "Switch") = false) :
    (classifyTopology reg (completeLinks ids w)).1 = "Full Mesh Topology" ∧
    (buildG (completeLinks ids w)).length =
      ids.length * (ids.length - 1) / 2 := by
  have hbg : buildG (completeLinks ids w) = completeLinks ids w :=
    buildG_of_pairwise _ (completeLinks_pairwise w ids hnd)
  have hgn : graphNodes reg (completeLinks ids w) = ids := by
    have hmem : ∀ l ∈ completeLinks ids w,
        l.u ∈ reg.map Prod.fst ∧ l.v ∈ reg.map Prod.fst := by
      intro l hl
      rw [hkeys]
      exact completeLinks_endpoints w ids l hl
    rw [graphNodes_of_mem reg _ hmem, hkeys]
  have h2l : 2 * (completeLinks ids w).length =
      ids.length * (ids.length - 1) := completeLinks_length w ids
  have hlen : (completeLinks ids w).length =
      ids.length * (ids.length - 1) / 2 := by omega
  refine ⟨?_, by rw [hbg, hlen]⟩
  apply classify_mesh_of
  · unfold starCond
    rw [hsw, Bool.false_and]
  · unfold ringCond
    rw [hgn, hbg]
    rcases hn with hn2 | hn4
    · rw [hn2]
      rfl
    · have hne : ids ≠ [] := by
        intro hq
        subst hq
        simp at hn4
      obtain ⟨i0, rest, rfl⟩ : ∃ i0 rest, ids = i0 :: rest := by
        rcases ids with - | ⟨i0, rest⟩
        · exact absurd rfl hne
        · exact ⟨i0, rest, rfl⟩
      have hdeg : degU (completeLinks (i0 :: rest) w) i0 =
          (i0 :: rest).length - 1 :=
        degU_completeLinks w (i0 :: rest) hnd i0 (by simp)
      have hfalse : (((i0 :: rest).length - 1 : Nat) == 2) = false := by
        rw [beq_eq_false_iff_ne]
        intro hq
        rw [List.length_cons] at hq hn4
        omega
      apply Bool.and_eq_false_iff.2
      right
      rw [List.all_eq_false]
      refine ⟨degU (completeLinks (i0 :: rest) w) i0,
        List.mem_map.2 ⟨i0, by simp, rfl⟩, ?_⟩
      rw [hdeg, hfalse]
      simp
  · unfold meshCond
    rw [hgn, hbg, hlen]
    simp

/-- C2 witness: a concrete complete graph on 4 PC devices with uniform
weight 2 classifies as Full Mesh with 6 = 4*3/2 edges. -/
theorem C2_witness :
    ([("A", "PC"), ("B", "PC"), ("C", "PC"), ("D", "PC")].map Prod.fst =
        ["A", "B", "C", "D"]) ∧
    (["A", "B", "C", "D"] : List String).Nodup ∧
    4 ≤ (["A", "B", "C", "D"] : List String).length ∧
    ([("A", "PC"), ("B", "PC"), ("C", "PC"), ("D", "PC")].any
        (fun p => p.2 == "Switch") = false) ∧
    ((classifyTopology [("A", "PC"), ("B", "PC"), ("C", "PC"), ("D", "PC")]
        (completeLinks ["A", "B", "C", "D"] 2)).1 = "Full Mesh Topology" ∧
     (buildG (completeLinks ["A", "B", "C", "D"] 2)).length =
       (["A", "B", "C", "D"] : List String).length *
         ((["A", "B", "C", "D"] : List String).length - 1) / 2) :=
  ⟨by decide, by decide, by decide, by decide,
   C2_amended [("A", "PC"), ("B", "PC"), ("C", "PC"), ("D", "PC")]
     ["A", "B", "C", "D"] 2 (by decide) (by decide) (Or.inr (by decide))
     (by decide)⟩

theorem degU_pathLinks (w : Nat) (l : List String) (hnd : l.Nodup)
    (z : String) :
    degU (pathLinks l w) z = l.dropLast.count z + l.tail.count z := by
  rw [degU_eq_counts _ _ (pathLinks_no_self w l hnd),
      pathLinks_ucount, pathLinks_vcount]

theorem degU_pathLinks_le_two (w : Nat) (l : List String) (hnd : l.Nodup)
    (z : String) : degU (pathLinks l w) z ≤ 2 := by
  rw [degU_pathLinks w l hnd z]
  have h1 : l.dropLast.count z ≤ 1 :=
    List.nodup_iff_count_le_one.1 (hnd.sublist (List.dropLast_sublist l)) z
  have h2 : l.tail.count z ≤ 1 :=
    List.nodup_iff_count_le_one.1 (hnd.sublist (List.tail_sublist l)) z
  omega

theorem degU_pathLinks_head (w : Nat) (a b : String) (r : List String)
    (hnd : (a :: b :: r).Nodup) :
    degU (pathLinks (a :: b :: r) w) a = 1 := by
  rw [degU_pathLinks w _ hnd a]
  have hna : a ∉ b :: r := (List.nodup_cons.1 hnd).1
  have hdl : (a :: b :: r).dropLast = a :: (b :: r).dropLast := rfl
  have h1 : (b :: r).dropLast.count a = 0 :=
    List.count_eq_zero_of_not_mem
      (fun hq => hna ((List.dropLast_sublist (b :: r)).mem hq))
  have h2 : (a :: b :: r).tail.count a = 0 :=
    List.count_eq_zero_of_not_mem hna
  rw [hdl, h2, List.count_cons_self, h1]

theorem degU_pathLinks_second (w : Nat) (a b c : String) (r : List String)
    (hnd : (a :: b :: c :: r).Nodup) :
    degU (pathLinks (a :: b :: c :: r) w) b = 2 := by
  rw [degU_pathLinks w _ hnd b]
  have hab : a ≠ b := by
    have := (List.nodup_cons.1 hnd).1
    intro hq
    exact this (by simp [hq])
  have hnb : b ∉ c :: r := (List.nodup_cons.1 (List.nodup_cons.1 hnd).2).1
  have hdl : (a :: b :: c :: r).dropLast = a :: b :: (c :: r).dropLast := rfl
  have h1 : (c :: r).dropLast.count b = 0 :=
    List.count_eq_zero_of_not_mem
      (fun hq => hnb ((List.dropLast_sublist (c :: r)).mem hq))
  have h2 : (c :: r).count b = 0 := List.count_eq_zero_of_not_mem hnb
  rw [hdl]
  have ht : (a :: b :: c :: r).tail = b :: c :: r := rfl
  rw [ht]
  simp [List.count_cons, h1, h2, Ne.symm hab]

theorem maxDeg_path (w : Nat) (a b c : String) (r : List String)
    (hnd : (a :: b :: c :: r).Nodup) :
    maxDeg (a :: b :: c :: r) (pathLinks (a :: b :: c :: r) w) = 2 := by
  unfold maxDeg
  apply foldr_max_eq
  · exact List.mem_map.2 ⟨b, by simp, degU_pathLinks_second w a b c r hnd⟩
  · intro d hd
    rcases List.mem_map.1 hd with ⟨z, hz, rfl⟩
    exact degU_pathLinks_le_two w _ hnd z

/-- C4 counterexample: a 4-node path (acyclic, exactly two nodes of degree 1,
all other degrees 2) is classified "Hybrid / Custom": the classification
chain of the source has no Bus branch at all. -/
theorem C4_cex :
    (classifyTopology [("P1", "PC"), ("P2", "PC"), ("P3", "PC"), ("P4", "PC")]
        (pathLinks ["P1", "P2", "P3", "P4"] 1)).1 = "Hybrid / Custom" ∧
    degU (buildG (pathLinks ["P1", "P2", "P3", "P4"] 1)) "P1" = 1 ∧
    degU (buildG (pathLinks ["P1", "P2", "P3", "P4"] 1)) "P2" = 2 ∧
    degU (buildG (pathLinks ["P1", "P2", "P3", "P4"] 1)) "P3" = 2 ∧
    degU (buildG (pathLinks ["P1", "P2", "P3", "P4"] 1)) "P4" = 1 ∧
    (buildG (pathLinks ["P1", "P2", "P3", "P4"] 1)).length = 3 ∧
    (graphNodes [("P1", "PC"), ("P2", "PC"), ("P3", "PC"), ("P4", "PC")]
        (pathLinks ["P1", "P2", "P3", "P4"] 1)).length = 4 := by
  decide

/-- C4 (amended): the classification chain has no Bus branch; a path graph on
N ≥ 4 nodes falls through the Star, Ring and Full Mesh tests and is classified
with the Hybrid fallback, whatever the device types. -/
theorem C4_amended (reg : List (String × String)) (ids : List String) (w : Nat)
    (hkeys : reg.map Prod.fst = ids) (hnd : ids.Nodup) (h4 : 4 ≤ ids.length) :
    (classifyTopology reg (pathLinks ids w)).1 = "Hybrid / Custom" := by
  rcases ids with - | ⟨a, ids2⟩
  · simp at h4
  rcases ids2 with - | ⟨b, ids3⟩
  · simp at h4
  rcases ids3 with - | ⟨c, r⟩
  · simp at h4
  have hgn : graphNodes reg (pathLinks (a :: b :: c :: r) w) =
      a :: b :: c :: r := by
    have hmem : ∀ l ∈ pathLinks (a :: b :: c :: r) w,
        l.u ∈ reg.map Prod.fst ∧ l.v ∈ reg.map Prod.fst := by
      intro l hl
      rw [hkeys]
      exact pathLinks_endpoints w _ l hl
    rw [graphNodes_of_mem reg _ hmem, hkeys]
  have hbg : buildG (pathLinks (a :: b :: c :: r) w) =
      pathLinks (a :: b :: c :: r) w :=
    buildG_of_pairwise _ (pathLinks_pairwise w _ hnd)
  have hlen4 : 4 ≤ (a :: b :: c :: r).length := h4
  apply classify_hybrid_of
  · unfold starCond
    rw [hgn, hbg, maxDeg_path w a b c r hnd]
    have hne : (((2 : Nat) : Int) ==
        ((a :: b :: c :: r).length : Int) - 1) = false := by
      rw [beq_eq_false_iff_ne]
      intro hq
      have hlen : (4 : Int) ≤ ((a :: b :: c :: r).length : Int) := by
        exact_mod_cast hlen4
      omega
    rw [hne, Bool.and_false]
  · unfold ringCond
    rw [hgn, hbg]
    apply Bool.and_eq_false_iff.2
    right
    rw [List.all_eq_false]
    refine ⟨degU (pathLinks (a :: b :: c :: r) w) a,
      List.mem_map.2 ⟨a, by simp, rfl⟩, ?_⟩
    rw [degU_pathLinks_head w a b (c :: r) hnd]
    simp
  · unfold meshCond
    rw [hgn, hbg, pathLinks_length]
    rw [beq_eq_false_iff_ne]
    intro hq
    set n := (a :: b :: c :: r).length with hn
    have hn1 : 1 ≤ n - 1 := by
      rw [hn]
      simp only [List.length_cons]
      omega
    have hdiv : 2 * (n - 1) ≤ n * (n - 1) / 2 := by
      rw [Nat.le_div_iff_mul_le (by omega : 0 < 2)]
      have : 4 * (n - 1) ≤ n * (n - 1) :=
        Nat.mul_le_mul_right (n - 1) hlen4
      omega
    omega

/-- C4 witness: a concrete 5-node path (with a Switch in the registry, which
changes nothing) is classified with the Hybrid fallback. -/
theorem C4_witness :
    ([("S", "Switch"), ("P2", "PC"), ("P3", "PC"), ("P4", "PC"),
        ("P5", "PC")].map Prod.fst = ["S", "P2", "P3", "P4", "P5"]) ∧
    (["S", "P2", "P3", "P4", "P5"] : List String).Nodup ∧
    4 ≤ (["S", "P2", "P3", "P4", "P5"] : List String).length ∧
    (classifyTopology
        [("S", "Switch"), ("P2", "PC"), ("P3", "PC"), ("P4", "PC"), ("P5", "PC")]
        (pathLinks ["S", "P2", "P3", "P4", "P5"] 7)).1 = "Hybrid / Custom" :=
  ⟨by decide, by decide, by decide,
   C4_amended
     [("S", "Switch"), ("P2", "PC"), ("P3", "PC"), ("P4", "PC"), ("P5", "PC")]
     ["S", "P2", "P3", "P4", "P5"] 7 (by decide) (by decide) (by decide)⟩

/-- C7 counterexample: with a single registered PC and no links the
classifier returns "Full Mesh Topology" (0 = N(N-1)/2 holds vacuously), and
with a single registered Switch it returns "Star Topology" (max degree
0 = N-1); with an empty registry the pure classification function returns
"Full Mesh Topology".  In none of these N < 2 cases does it return the
claimed "Hybrid / Custom". -/
theorem C7_cex :
    (classifyTopology [("PC-01", "PC")] []).1 = "Full Mesh Topology" ∧
    (classifyTopology [("S", "Switch")] []).1 = "Star Topology" ∧
    (classifyTopology [] []).1 = "Full Mesh Topology" := by
  decide

/-- C7 (amended): for N < 2 the classifier is total — the max-degree guard
(`max(...) if degrees else 0`) indeed prevents any error — but it never
returns the Hybrid fallback: it returns Star when the single device is a
Switch (max degree 0 equals N-1 = 0) and Full Mesh otherwise (edge count 0
equals N(N-1)/2). -/
theorem C7_amended (reg : List (String × String)) (hlen : reg.length ≤ 1) :
    (classifyTopology reg []).1 =
      if reg.any (fun p => p.2 == "Switch") then "Star Topology"
      else "Full Mesh Topology" := by
  rcases reg with - | ⟨⟨i, t⟩, rest⟩
  · decide
  · rcases rest with - | ⟨p2, rest2⟩
    · have hstar : starCond [(i, t)] [] = (t == "Switch") := by
        unfold starCond maxDeg graphNodes buildG degU
        simp
      have hring : ringCond [(i, t)] [] = false := by
        unfold ringCond graphNodes buildG
        simp
      have hmesh : meshCond [(i, t)] [] = true := by
        unfold meshCond graphNodes buildG
        simp
      rw [classify_fst, hstar, hring, hmesh]
      cases hts : (t == "Switch" : Bool) <;> simp [hts]
    · simp at hlen

/-- C7 witness: the single-PC registry instantiates the amended statement. -/
theorem C7_witness :
    ([("PC-01", "PC")] : List (String × String)).length ≤ 1 ∧
    (classifyTopology [("PC-01", "PC")] []).1 =
      (if [("PC-01", "PC")].any (fun p => p.2 == "Switch") then "Star Topology"
       else "Full Mesh Topology") :=
  ⟨by decide, C7_amended [("PC-01", "PC")] (by decide)⟩

/-- C8 counterexample: submitting the link form with equal endpoints returns
the state unchanged and takes the silent branch (`false`: no append, no
`st.rerun()`, and no exception of any kind — there is no `InvalidLinkError`
anywhere in the handler). -/
theorem C8_cex :
    establishLink { nodes := [("PC-01", "PC"), ("R1", "Router")], links := [] }
        "PC-01" "PC-01" 10 =
      ({ nodes := [("PC-01", "PC"), ("R1", "Router")], links := [] }, false) := by
  decide

/-- C8 (amended): a self-link request (u = v) is rejected silently: the
handler leaves the whole session state (devices and links) unchanged and
signals nothing — it does not raise an `InvalidLinkError` (no error path
exists); no self-link is ever stored. -/
theorem C8_amended (s : AppState) (u : String) (w : Nat) :
    establishLink s u u w = (s, false) := by
  simp [establishLink]

theorem addEdge_mem_src (acc : List Link) (l : Link) :
    ∀ a2 ∈ addEdge acc l,
      ((∃ a ∈ acc, a2.u = a.u ∧ a2.v = a.v) ∨ (a2.u = l.u ∧ a2.v = l.v)) ∧
      ((∃ a ∈ acc, a2.w = a.w) ∨ a2.w = l.w) := by
  intro a2 ha2
  unfold addEdge at ha2
  by_cases hc : acc.any (fun e => sameEnds e l) = true
  · rw [if_pos hc] at ha2
    rcases List.mem_map.1 ha2 with ⟨a, ha, rfl⟩
    by_cases hs : sameEnds a l = true
    · rw [if_pos hs]
      exact ⟨Or.inl ⟨a, ha, rfl, rfl⟩, Or.inr rfl⟩
    · rw [if_neg hs]
      exact ⟨Or.inl ⟨a, ha, rfl, rfl⟩, Or.inl ⟨a, ha, rfl⟩⟩
  · rw [if_neg hc] at ha2
    rcases List.mem_append.1 ha2 with h | h
    · exact ⟨Or.inl ⟨a2, h, rfl, rfl⟩, Or.inl ⟨a2, h, rfl⟩⟩
    · have he : a2 = l := by simpa using h
      subst he
      exact ⟨Or.inr ⟨rfl, rfl⟩, Or.inr rfl⟩

theorem buildG_heritage :
    ∀ (ls acc : List Link), ∀ e ∈ ls.foldl addEdge acc,
      ((∃ a ∈ acc, e.u = a.u ∧ e.v = a.v) ∨ (∃ l ∈ ls, e.u = l.u ∧ e.v = l.v)) ∧
      ((∃ a ∈ acc, e.w = a.w) ∨ (∃ l ∈ ls, e.w = l.w))
  | [], acc, e, he =>
      ⟨Or.inl ⟨e, he, rfl, rfl⟩, Or.inl ⟨e, he, rfl⟩⟩
  | l :: rest, acc, e, he => by
      rw [List.foldl_cons] at he
      have ih := buildG_heritage rest (addEdge acc l) e he
      constructor
      · rcases ih.1 with ⟨a2, ha2, hu, hv⟩ | ⟨l2, hl2, hu, hv⟩
        · rcases (addEdge_mem_src acc l a2 ha2).1 with ⟨a, ha, hu2, hv2⟩ | ⟨hu2, hv2⟩
          · exact Or.inl ⟨a, ha, hu.trans hu2, hv.trans hv2⟩
          · exact Or.inr ⟨l, by simp, hu.trans hu2, hv.trans hv2⟩
        · exact Or.inr ⟨l2, by simp [hl2], hu, hv⟩
      · rcases ih.2 with ⟨a2, ha2, hw⟩ | ⟨l2, hl2, hw⟩
        · rcases (addEdge_mem_src acc l a2 ha2).2 with ⟨a, ha, hw2⟩ | hw2
          · exact Or.inl ⟨a, ha, hw.trans hw2⟩
          · exact Or.inr ⟨l, by simp, hw.trans hw2⟩
        · exact Or.inr ⟨l2, by simp [hl2], hw⟩

/-- Every edge of the built undirected graph takes its endpoint pair (in its
stored orientation) and its weight from links of the registry list. -/
theorem buildG_src (links : List Link) :
    ∀ e ∈ buildG links,
      (∃ l ∈ links, e.u = l.u ∧ e.v = l.v) ∧ (∃ l ∈ links, e.w = l.w) := by
  intro e he
  have h := buildG_heritage links [] e he
  constructor
  · rcases h.1 with ⟨a, ha, -⟩ | hsrc
    · simp at ha
    · exact hsrc
  · rcases h.2 with ⟨a, ha, -⟩ | hsrc
    · simp at ha
    · exact hsrc

theorem dictInsert_keys (reg : List (String × String)) (id t : String) :
    ∀ x ∈ reg.map Prod.fst, x ∈ (dictInsert reg id t).map Prod.fst := by
  intro x hx
  unfold dictInsert
  by_cases hc : reg.any (fun p => p.1 == id) = true
  · rw [if_pos hc, List.map_map]
    rcases List.mem_map.1 hx with ⟨p, hp, rfl⟩
    refine List.mem_map.2 ⟨p, hp, ?_⟩
    by_cases hpi : (p.1 == id) = true
    · have hp1 : p.1 = id := by simpa using hpi
      simp [Function.comp, hpi, hp1]
    · simp [Function.comp, hpi]
  · rw [if_neg hc, List.map_append]
    exact List.mem_append_left _ hx

/-- C10: the registry invariant is preserved by every mutating operation —
adding a device (keys only grow or are overwritten in place), establishing a
link whose endpoints were chosen from the registered devices with the
widget-enforced weight ≥ 1, and resetting — and consequently every edge of the
built graph has weight ≥ 1 and endpoints in the device set, and the graph node
list is exactly the registered device list. -/
theorem C10_registry_invariant :
    (∀ (s : AppState) (id t : String), RegInv s → RegInv (addDevice s id t)) ∧
    (∀ (s : AppState) (u v : String) (w : Nat), RegInv s →
      u ∈ s.nodes.map Prod.fst → v ∈ s.nodes.map Prod.fst → 1 ≤ w →
      RegInv (establishLink s u v w).1) ∧
    RegInv resetState ∧
    (∀ s : AppState, RegInv s → ∀ e ∈ buildG s.links,
      1 ≤ e.w ∧ e.u ∈ s.nodes.map Prod.fst ∧ e.v ∈ s.nodes.map Prod.fst) ∧
    (∀ s : AppState, RegInv s →
      graphNodes s.nodes s.links = s.nodes.map Prod.fst) := by
  refine ⟨?_, ?_, ?_, ?_, ?_⟩
  · intro s id t hinv l hl
    have h := hinv l hl
    exact ⟨h.1, dictInsert_keys s.nodes id t l.u h.2.1,
      dictInsert_keys s.nodes id t l.v h.2.2⟩
  · intro s u v w hinv hu hv hw
    by_cases hne : u ≠ v
    · have hres : (establishLink s u v w).1 =
          { s with links := s.links ++ [{ u := u, v := v, w := w }] } := by
        simp [establishLink, hne]
      rw [hres]
      intro l hl
      rcases List.mem_append.1 hl with h | h
      · exact hinv l h
      · have he : l = { u := u, v := v, w := w } := by simpa using h
        subst he
        exact ⟨hw, hu, hv⟩
    · have hres : (establishLink s u v w).1 = s := by
        simp [establishLink, hne]
      rw [hres]
      exact hinv
  · intro l hl
    simp [resetState] at hl
  · intro s hinv e he
    have h := buildG_src s.links e he
    rcases h.1 with ⟨l1, hl1, hu, hv⟩
    rcases h.2 with ⟨l2, hl2, hw⟩
    exact ⟨hw ▸ (hinv l2 hl2).1, hu ▸ (hinv l1 hl1).2.1, hv ▸ (hinv l1 hl1).2.2⟩
  · intro s hinv
    exact graphNodes_of_mem s.nodes s.links
      (fun l hl => ⟨(hinv l hl).2.1, (hinv l hl).2.2⟩)

/-- C10 witness: the invariant holds for a concrete two-device one-link state
and is preserved when adding a device and a valid link to it. -/
theorem C10_witness :
    RegInv ⟨[("A", "PC"), ("B", "PC")], [⟨"A", "B", 3⟩]⟩ ∧
    RegInv (addDevice ⟨[("A", "PC"), ("B", "PC")], [⟨"A", "B", 3⟩]⟩
      "C" "Router") ∧
    RegInv (establishLink ⟨[("A", "PC"), ("B", "PC")], [⟨"A", "B", 3⟩]⟩
      "B" "A" 2).1 :=
  ⟨by unfold RegInv; decide,
   C10_registry_invariant.1 ⟨[("A", "PC"), ("B", "PC")], [⟨"A", "B", 3⟩]⟩
     "C" "Router" (by unfold RegInv; decide),
   C10_registry_invariant.2.1 ⟨[("A", "PC"), ("B", "PC")], [⟨"A", "B", 3⟩]⟩
     "B" "A" 2 (by unfold RegInv; decide) (by decide) (by decide) (by decide)⟩

theorem build_eq_aux (links : List Link) (hnr : noRev links) :
    ∀ (ls acc : List Link), (∀ l ∈ ls, l ∈ links) →
      (∀ a ∈ acc, ∃ l0 ∈ links, a.u = l0.u ∧ a.v = l0.v) →
      ls.foldl addEdge acc = ls.foldl addEdgeDir acc
  | [], _, _, _ => rfl
  | l :: rest, acc, hls, hacc => by
      have hl : l ∈ links := hls l (by simp)
      have hag : ∀ a ∈ acc, sameEnds a l = sameDir a l := by
        intro a ha
        rcases hacc a ha with ⟨l0, hl0, hu, hv⟩
        unfold sameEnds sameDir
        by_cases hrev : a.u = l.v ∧ a.v = l.u
        · exact absurd ⟨hu.symm.trans hrev.1, hv.symm.trans hrev.2⟩
            (hnr l0 hl0 l hl)
        · have hfalse : (a.u == l.v && a.v == l.u) = false := by
            cases h2 : (a.u == l.v : Bool) <;> cases h3 : (a.v == l.u : Bool)
            · rfl
            · rfl
            · rfl
            · exact absurd ⟨by simpa using h2, by simpa using h3⟩ hrev
          rw [hfalse, Bool.or_false]
      have hany : acc.any (fun e => sameEnds e l) =
          acc.any (fun e => sameDir e l) := by
        cases h1 : acc.any (fun e => sameDir e l)
        · rw [List.any_eq_false] at h1 ⊢
          intro a ha
          rw [hag a ha]
          exact h1 a ha
        · rw [List.any_eq_true] at h1 ⊢
          obtain ⟨a, ha, hp⟩ := h1
          refine ⟨a, ha, ?_⟩
          rw [hag a ha]
          exact hp
      have hstep : addEdge acc l = addEdgeDir acc l := by
        unfold addEdge addEdgeDir
        rw [hany]
        by_cases hc : acc.any (fun e => sameDir e l) = true
        · rw [if_pos hc, if_pos hc]
          apply List.map_congr_left
          intro a ha
          rw [hag a ha]
        · rw [if_neg hc, if_neg hc]
      rw [List.foldl_cons, List.foldl_cons, hstep]
      apply build_eq_aux links hnr rest (addEdgeDir acc l)
        (fun l2 h2 => hls l2 (by simp [h2]))
      intro a2 ha2
      unfold addEdgeDir at ha2
      by_cases hc : acc.any (fun e => sameDir e l) = true
      · rw [if_pos hc] at ha2
        rcases List.mem_map.1 ha2 with ⟨a, ha, rfl⟩
        rcases hacc a ha with ⟨l0, hl0, hu, hv⟩
        by_cases hs : sameDir a l = true
        · rw [if_pos hs]
          exact ⟨l0, hl0, hu, hv⟩
        · rw [if_neg hs]
          exact ⟨l0, hl0, hu, hv⟩
      · rw [if_neg hc] at ha2
        rcases List.mem_append.1 ha2 with h | h
        · exact hacc a2 h
        · have he : a2 = l := by simpa using h
          exact ⟨l, hl, by rw [he], by rw [he]⟩

/-- When no pair of links is reversed, the directed mirror graph stores
exactly the same edge list as the undirected graph. -/
theorem buildGdir_eq_buildG (links : List Link) (hnr : noRev links) :
    buildGdir links = buildG links :=
  (build_eq_aux links hnr links [] (fun _ h => h)
    (fun a ha => absurd ha (List.not_mem_nil a))).symm

/-- C9 counterexample: with devices {A, B} and the two links (A,B,1) and
(B,A,1), the undirected graph has a single edge, so A has total degree 1,
but the directed mirror holds both orientations, so in-degree plus
out-degree of A is 2: the displayed justification fails. -/
theorem C9_cex :
    degU (buildG [⟨"A", "B", 1⟩, ⟨"B", "A", 1⟩]) "A" = 1 ∧
    inDeg (buildGdir [⟨"A", "B", 1⟩, ⟨"B", "A", 1⟩]) "A" = 1 ∧
    outDeg (buildGdir [⟨"A", "B", 1⟩, ⟨"B", "A", 1⟩]) "A" = 1 ∧
    (buildG [⟨"A", "B", 1⟩, ⟨"B", "A", 1⟩]).length = 1 ∧
    (buildGdir [⟨"A", "B", 1⟩, ⟨"B", "A", 1⟩]).length = 2 := by
  decide

/-- C9 (amended): provided the link list never joins the same pair in
opposite orientations (which also rules out self-links), every node has
in-degree plus out-degree in the directed mirror equal to its degree in the
undirected graph: the report justification Σ(In) + Σ(Out) = Total Degree is
valid exactly under that proviso. -/
theorem C9_amended (links : List Link) (hnr : noRev links) (x : String) :
    inDeg (buildGdir links) x + outDeg (buildGdir links) x =
      degU (buildG links) x := by
  rw [buildGdir_eq_buildG links hnr]
  have hself : ∀ e ∈ buildG links, e.u ≠ e.v := by
    intro e he
    rcases (buildG_src links e he).1 with ⟨l, hl, hu, hv⟩
    intro hc
    have h1 : l.u = l.v := hu.symm.trans (hc.trans hv)
    exact hnr l hl l hl ⟨h1, h1.symm⟩
  rw [degU_eq_counts _ _ hself]
  simp only [inDeg, outDeg, List.countP_eq_length_filter]
  omega

/-- C9 witness: a concrete registry where the two links share no reversed
pair satisfies the degree identity at node B. -/
theorem C9_witness :
    noRev [⟨"A", "B", 1⟩, ⟨"B", "C", 2⟩] ∧
    inDeg (buildGdir [⟨"A", "B", 1⟩, ⟨"B", "C", 2⟩]) "B" +
        outDeg (buildGdir [⟨"A", "B", 1⟩, ⟨"B", "C", 2⟩]) "B" =
      degU (buildG [⟨"A", "B", 1⟩, ⟨"B", "C", 2⟩]) "B" :=
  ⟨by unfold noRev; decide,
   C9_amended [⟨"A", "B", 1⟩, ⟨"B", "C", 2⟩] (by unfold noRev; decide) "B"⟩

theorem adjB_iff (es : List Link) (x y : String) :
    adjB es x y = true ↔ Adj es x y := by
  unfold adjB Adj
  rw [List.any_eq_true]
  constructor
  · rintro ⟨e, he, hp⟩
    refine ⟨e, he, ?_⟩
    simp only [Bool.or_eq_true, Bool.and_eq_true, beq_iff_eq] at hp
    exact hp
  · rintro ⟨e, he, hp⟩
    refine ⟨e, he, ?_⟩
    rcases hp with ⟨h1, h2⟩ | ⟨h1, h2⟩
    · simp [h1, h2]
    · simp [h1, h2]

theorem adj_symm {es : List Link} {x y : String} (h : Adj es x y) :
    Adj es y x := by
  rcases h with ⟨e, he, hp⟩
  exact ⟨e, he, hp.symm⟩

theorem adj_mono {es es2 : List Link} {x y : String}
    (hsub : ∀ e ∈ es, e ∈ es2) (h : Adj es x y) : Adj es2 x y := by
  rcases h with ⟨e, he, hp⟩
  exact ⟨e, hsub e he, hp⟩

theorem reach_mono {es es2 : List Link} {x y : String}
    (hsub : ∀ e ∈ es, e ∈ es2) (h : Reach es x y) : Reach es2 x y :=
  Relation.ReflTransGen.mono (fun _ _ ha => adj_mono hsub ha) h

theorem reach_symm {es : List Link} {x y : String} (h : Reach es x y) :
    Reach es y x := by
  induction h with
  | refl => exact Relation.ReflTransGen.refl
  | tail _ hadj ih => exact Relation.ReflTransGen.head (adj_symm hadj) ih

theorem Reach.of_adj {es : List Link} {x y : String} (h : Adj es x y) :
    Reach es x y :=
  Relation.ReflTransGen.single h

theorem nbors_sound (S : List String) :
    ∀ es : List Link, ∀ z ∈ nbors es S, ∃ s ∈ S, Adj es s z
  | [], z, hz => by simp [nbors] at hz
  | e :: rest, z, hz => by
      have hexp : nbors (e :: rest) S =
          ((if e.u ∈ S then [e.v] else []) ++
            (if e.v ∈ S then [e.u] else [])) ++ nbors rest S := rfl
      rw [hexp] at hz
      rcases List.mem_append.1 hz with h | h
      · rcases List.mem_append.1 h with h2 | h2
        · by_cases hu : e.u ∈ S
          · rw [if_pos hu] at h2
            have hzv : z = e.v := by simpa using h2
            exact ⟨e.u, hu, e, by simp, Or.inl ⟨rfl, hzv.symm⟩⟩
          · rw [if_neg hu] at h2
            simp at h2
        · by_cases hv : e.v ∈ S
          · rw [if_pos hv] at h2
            have hzu : z = e.u := by simpa using h2
            exact ⟨e.v, hv, e, by simp, Or.inr ⟨hzu.symm, rfl⟩⟩
          · rw [if_neg hv] at h2
            simp at h2
      · rcases nbors_sound S rest z h with ⟨s, hs, hadj⟩
        exact ⟨s, hs, adj_mono (fun a ha => by simp [ha]) hadj⟩

theorem nbors_complete (S : List String) :
    ∀ es : List Link, ∀ e ∈ es,
      (e.u ∈ S → e.v ∈ nbors es S) ∧ (e.v ∈ S → e.u ∈ nbors es S)
  | [], e, he => by simp at he
  | e2 :: rest, e, he => by
      have hexp : nbors (e2 :: rest) S =
          ((if e2.u ∈ S then [e2.v] else []) ++
            (if e2.v ∈ S then [e2.u] else [])) ++ nbors rest S := rfl
      rcases List.mem_cons.1 he with rfl | hrest
      · constructor
        · intro hu
          rw [hexp]
          apply List.mem_append_left
          apply List.mem_append_left
          rw [if_pos hu]
          simp
        · intro hv
          rw [hexp]
          apply List.mem_append_left
          apply List.mem_append_right
          rw [if_pos hv]
          simp
      · have ih := nbors_complete S rest e hrest
        constructor
        · intro hu
          rw [hexp]
          exact List.mem_append_right _ (ih.1 hu)
        · intro hv
          rw [hexp]
          exact List.mem_append_right _ (ih.2 hv)

theorem subset_stepCl (es : List Link) (S : List String) :
    ∀ z ∈ S, z ∈ stepCl es S := by
  intro z hz
  exact List.mem_append_left _ hz

theorem mem_stepCl (es : List Link) (S : List String) :
    ∀ z ∈ stepCl es S, z ∈ S ∨ z ∈ nbors es S := by
  intro z hz
  rcases List.mem_append.1 hz with h | h
  · exact Or.inl h
  · exact Or.inr (List.mem_dedup.1 (List.mem_of_mem_filter h))

theorem stepCl_nodup (es : List Link) (S : List String) (h : S.Nodup) :
    (stepCl es S).Nodup := by
  unfold stepCl
  rw [List.nodup_append]
  refine ⟨h, (List.nodup_dedup _).filter _, ?_⟩
  intro a ha hb
  have := List.of_mem_filter hb
  simp at this
  exact this ha

theorem stepCl_sound (es : List Link) (S : List String) (x : String)
    (hS : ∀ s ∈ S, Reach es x s) :
    ∀ z ∈ stepCl es S, Reach es x z := by
  intro z hz
  rcases mem_stepCl es S z hz with h | h
  · exact hS z h
  · rcases nbors_sound S es z h with ⟨s, hs, hadj⟩
    exact Relation.ReflTransGen.tail (hS s hs) hadj

theorem stepCl_fix_closed (es : List Link) (S : List String)
    (hfix : stepCl es S = S) : ∀ z ∈ nbors es S, z ∈ S := by
  intro z hz
  have ht : ((nbors es S).dedup.filter (fun z => decide (z ∉ S))) = [] := by
    have := hfix
    unfold stepCl at this
    exact List.append_right_eq_self.1 this
  by_contra hzs
  have hzf : z ∈ (nbors es S).dedup.filter (fun z => decide (z ∉ S)) :=
    List.mem_filter.2 ⟨List.mem_dedup.2 hz, by simpa using hzs⟩
  rw [ht] at hzf
  simp at hzf

theorem subset_closureN (es : List Link) :
    ∀ (k : Nat) (S : List String), ∀ z ∈ S, z ∈ closureN es k S
  | 0, S, z, hz => hz
  | k + 1, S, z, hz =>
      subset_closureN es k (stepCl es S) z (subset_stepCl es S z hz)

theorem closureN_sound (es : List Link) (x : String) :
    ∀ (k : Nat) (S : List String), (∀ s ∈ S, Reach es x s) →
      ∀ z ∈ closureN es k S, Reach es x z
  | 0, S, hS, z, hz => hS z hz
  | k + 1, S, hS, z, hz =>
      closureN_sound es x k (stepCl es S) (stepCl_sound es S x hS) z hz

theorem closureN_fix (es : List Link) (S : List String)
    (hfix : stepCl es S = S) :
    ∀ k : Nat, closureN es k S = S
  | 0 => rfl
  | k + 1 => by
      have h1 : closureN es (k + 1) S = closureN es k (stepCl es S) := rfl
      rw [h1, hfix]
      exact closureN_fix es S hfix k

theorem closed_reach_mem (es : List Link) (S : List String)
    (hfix : stepCl es S = S) {x z : String} (hx : x ∈ S)
    (h : Reach es x z) : z ∈ S := by
  induction h with
  | refl => exact hx
  | tail _ hadj ih =>
      rcases hadj with ⟨e, he, hp⟩
      have hcl := stepCl_fix_closed es S hfix
      have hnc := nbors_complete S es e he
      rcases hp with ⟨hu, hv⟩ | ⟨hu, hv⟩
      · exact hv ▸ hcl _ (hnc.1 (hu ▸ ih))
      · exact hu ▸ hcl _ (hnc.2 (hv ▸ ih))

theorem mem_endsList :
    ∀ es : List Link, ∀ e ∈ es, e.u ∈ endsList es ∧ e.v ∈ endsList es
  | [], e, he => by simp at he
  | e2 :: rest, e, he => by
      have hexp : endsList (e2 :: rest) = e2.u :: e2.v :: endsList rest := rfl
      rcases List.mem_cons.1 he with rfl | hrest
      · rw [hexp]
        exact ⟨by simp, by simp⟩
      · have ih := mem_endsList rest e hrest
        rw [hexp]
        exact ⟨by simp [ih.1], by simp [ih.2]⟩

theorem endsList_length : ∀ es : List Link, (endsList es).length = 2 * es.length
  | [] => rfl
  | e :: rest => by
      have hexp : endsList (e :: rest) = e.u :: e.v :: endsList rest := rfl
      rw [hexp, List.length_cons, List.length_cons, endsList_length rest,
          List.length_cons]
      omega

theorem stepCl_subset_U (es : List Link) (S U : List String)
    (hep : ∀ e ∈ es, e.u ∈ U ∧ e.v ∈ U) (hS : ∀ z ∈ S, z ∈ U) :
    ∀ z ∈ stepCl es S, z ∈ U := by
  intro z hz
  rcases mem_stepCl es S z hz with h | h
  · exact hS z h
  · rcases nbors_sound S es z h with ⟨s, _, e, he, hp⟩
    rcases hp with ⟨-, hv⟩ | ⟨hu, -⟩
    · exact hv ▸ (hep e he).2
    · exact hu ▸ (hep e he).1

theorem stepCl_grow (es : List Link) (S : List String)
    (hne : stepCl es S ≠ S) : S.length + 1 ≤ (stepCl es S).length := by
  unfold stepCl at hne ⊢
  rcases hq : (nbors es S).dedup.filter (fun z => decide (z ∉ S)) with - | ⟨a, t⟩
  · rw [hq] at hne
    simp at hne
  · rw [List.length_append, List.length_cons]
    omega

theorem pigeon (es : List Link) (U : List String)
    (hep : ∀ e ∈ es, e.u ∈ U ∧ e.v ∈ U) :
    ∀ (k : Nat) (S : List String), S.Nodup → (∀ z ∈ S, z ∈ U) →
      U.length + 1 ≤ S.length + k →
      stepCl es (closureN es k S) = closureN es k S
  | 0, S, hnd, hsub, hbound => by
      have hle : S.length ≤ U.length :=
        List.Subperm.length_le (hnd.subperm hsub)
      omega
  | k + 1, S, hnd, hsub, hbound => by
      by_cases hfix : stepCl es S = S
      · have h1 : closureN es (k + 1) S = closureN es k (stepCl es S) := rfl
        rw [h1, hfix, closureN_fix es S hfix k]
        exact hfix
      · have h1 : closureN es (k + 1) S = closureN es k (stepCl es S) := rfl
        rw [h1]
        apply pigeon es U hep k (stepCl es S) (stepCl_nodup es S hnd)
          (stepCl_subset_U es S U hep hsub)
        have := stepCl_grow es S hfix
        omega

theorem reachB_sound (es : List Link) (x z : String)
    (h : reachB es x z = true) : Reach es x z := by
  unfold reachB at h
  have hmem : z ∈ closureN es (2 * es.length + 1) [x] := of_decide_eq_true h
  refine closureN_sound es x (2 * es.length + 1) [x] ?_ z hmem
  intro s hs
  have hsx : s = x := by simpa using hs
  rw [hsx]
  exact Relation.ReflTransGen.refl

theorem reachB_complete (es : List Link) (x z : String)
    (h : Reach es x z) : reachB es x z = true := by
  unfold reachB
  set B := 2 * es.length + 1 with hB
  have hfix : stepCl es (closureN es B [x]) = closureN es B [x] := by
    apply pigeon es (x :: endsList es)
      (fun e he => ⟨by simp [(mem_endsList es e he).1],
                    by simp [(mem_endsList es e he).2]⟩)
      B [x] (by simp) (by intro z2 hz2; simp at hz2; simp [hz2])
    have hlen1 : ([x] : List String).length = 1 := rfl
    rw [List.length_cons, endsList_length es, hlen1, hB]
    omega
  have hx : x ∈ closureN es B [x] :=
    subset_closureN es B [x] x (by simp)
  have := closed_reach_mem es (closureN es B [x]) hfix hx h
  exact decide_eq_true this

theorem reachB_iff (es : List Link) (x z : String) :
    reachB es x z = true ↔ Reach es x z :=
  ⟨reachB_sound es x z, reachB_complete es x z⟩

theorem connectedB_iff (ns : List String) (es : List Link) :
    connectedB ns es = true ↔ ConnectedOn ns es := by
  unfold connectedB ConnectedOn
  rw [List.all_eq_true]
  constructor
  · intro h x hx y hy
    have h2 := h x hx
    rw [List.all_eq_true] at h2
    exact reachB_sound es x y (h2 y hy)
  · intro h x hx
    rw [List.all_eq_true]
    intro y hy
    exact reachB_complete es x y (h x hx y hy)

theorem crossing (es : List Link) (S : List String) {a b : String}
    (h : Reach es a b) (ha : a ∈ S) (hb : b ∉ S) :
    ∃ e ∈ es, (e.u ∈ S ∧ e.v ∉ S) ∨ (e.v ∈ S ∧ e.u ∉ S) := by
  revert ha
  induction h using Relation.ReflTransGen.head_induction_on with
  | refl => intro ha; exact absurd ha hb
  | @head a2 c hadj hrest ih =>
      intro ha2
      by_cases hcs : c ∈ S
      · exact ih hcs
      · rcases hadj with ⟨e, he, hp⟩
        rcases hp with ⟨hu, hv⟩ | ⟨hu, hv⟩
        · exact ⟨e, he, Or.inl ⟨hu.symm ▸ ha2, hv.symm ▸ hcs⟩⟩
        · exact ⟨e, he, Or.inr ⟨hv.symm ▸ ha2, hu.symm ▸ hcs⟩⟩

theorem grow (ns : List String) (es : List Link) (hnd : ns.Nodup)
    (hep : ∀ e ∈ es, e.u ∈ ns ∧ e.v ∈ ns) (hconn : ConnectedOn ns es) :
    ∀ (k : Nat) (S : List String) (T : List Link),
      S.Nodup → (∀ z ∈ S, z ∈ ns) → S ≠ [] →
      (∀ e ∈ T, e ∈ es) → T.Nodup →
      (∀ e ∈ T, e.u ∈ S ∧ e.v ∈ S) →
      T.length + 1 = S.length →
      (∀ x ∈ S, ∀ y ∈ S, Reach T x y) →
      ns.length = S.length + k →
      ∃ t : List Link, (∀ e ∈ t, e ∈ es) ∧ t.Nodup ∧
        t.length + 1 = ns.length ∧ ConnectedOn ns t
  | 0, S, T, hSnd, hSsub, _, hTsub, hTnd, _, hlen, hreach, hcount => by
      have hperm : List.Perm S ns :=
        (hSnd.subperm hSsub).perm_of_length_le (by omega)
      refine ⟨T, hTsub, hTnd, by omega, ?_⟩
      intro x hx y hy
      exact hreach x (hperm.mem_iff.2 hx) y (hperm.mem_iff.2 hy)
  | k + 1, S, T, hSnd, hSsub, hSne, hTsub, hTnd, hTend, hlen, hreach, hcount => by
      obtain ⟨z, hzn, hzs⟩ : ∃ z ∈ ns, z ∉ S := by
        by_contra hcon
        push_neg at hcon
        have hle := (hnd.subperm hcon).length_le
        omega
      obtain ⟨x0, hx0⟩ : ∃ x0, x0 ∈ S := by
        rcases S with - | ⟨a, s2⟩
        · exact absurd rfl hSne
        · exact ⟨a, by simp⟩
      have hreach0 : Reach es x0 z := hconn x0 (hSsub x0 hx0) z hzn
      obtain ⟨e, he, hcross⟩ := crossing es S hreach0 hx0 hzs
      obtain ⟨uin, vnew, hor, hinS, houtS⟩ :
          ∃ uin vnew, ((e.u = uin ∧ e.v = vnew) ∨ (e.u = vnew ∧ e.v = uin)) ∧
            uin ∈ S ∧ vnew ∉ S := by
        rcases hcross with ⟨hin, hout⟩ | ⟨hin, hout⟩
        · exact ⟨e.u, e.v, Or.inl ⟨rfl, rfl⟩, hin, hout⟩
        · exact ⟨e.v, e.u, Or.inr ⟨rfl, rfl⟩, hin, hout⟩
      have hvns : vnew ∈ ns := by
        rcases hor with ⟨-, hv⟩ | ⟨hu, -⟩
        · exact hv ▸ (hep e he).2
        · exact hu ▸ (hep e he).1
      have heT : e ∉ T := by
        intro hc
        rcases hor with ⟨-, hv⟩ | ⟨hu, -⟩
        · exact houtS (hv ▸ (hTend e hc).2)
        · exact houtS (hu ▸ (hTend e hc).1)
      have hadj : Adj (T ++ [e]) uin vnew :=
        ⟨e, List.mem_append_right _ (by simp), by
          rcases hor with ⟨hu, hv⟩ | ⟨hu, hv⟩
          · exact Or.inl ⟨hu, hv⟩
          · exact Or.inr ⟨hu, hv⟩⟩
      have hmono : ∀ {x y : String}, Reach T x y → Reach (T ++ [e]) x y :=
        fun h => reach_mono (fun a ha => List.mem_append_left _ ha) h
      apply grow ns es hnd hep hconn k (S ++ [vnew]) (T ++ [e])
      · rw [List.nodup_append]
        refine ⟨hSnd, by simp, ?_⟩
        intro a haS hav
        have : a = vnew := by simpa using hav
        exact houtS (this ▸ haS)
      · intro z2 hz2
        rcases List.mem_append.1 hz2 with h2 | h2
        · exact hSsub z2 h2
        · have : z2 = vnew := by simpa using h2
          exact this ▸ hvns
      · simp
      · intro e2 he2
        rcases List.mem_append.1 he2 with h2 | h2
        · exact hTsub e2 h2
        · have : e2 = e := by simpa using h2
          exact this ▸ he
      · rw [List.nodup_append]
        refine ⟨hTnd, by simp, ?_⟩
        intro a haT hae
        have : a = e := by simpa using hae
        exact heT (this ▸ haT)
      · intro e2 he2
        rcases List.mem_append.1 he2 with h2 | h2
        · exact ⟨List.mem_append_left _ (hTend e2 h2).1,
            List.mem_append_left _ (hTend e2 h2).2⟩
        · have he2e : e2 = e := by simpa using h2
          subst he2e
          rcases hor with ⟨hu, hv⟩ | ⟨hu, hv⟩
          · exact ⟨hu ▸ List.mem_append_left _ hinS,
              hv ▸ List.mem_append_right _ (by simp)⟩
          · exact ⟨hu ▸ List.mem_append_right _ (by simp),
              hv ▸ List.mem_append_left _ hinS⟩
      · rw [List.length_append, List.length_append]
        simp only [List.length_cons, List.length_nil]
        omega
      · intro x hx y hy
        rcases List.mem_append.1 hx with hx2 | hx2 <;>
          rcases List.mem_append.1 hy with hy2 | hy2
        · exact hmono (hreach x hx2 y hy2)
        · have hyv : y = vnew := by simpa using hy2
          subst hyv
          exact Relation.ReflTransGen.tail (hmono (hreach x hx2 uin hinS)) hadj
        · have hxv : x = vnew := by simpa using hx2
          subst hxv
          exact Relation.ReflTransGen.head (adj_symm hadj)
            (hmono (hreach uin hinS y hy2))
        · have hxv : x = vnew := by simpa using hx2
          have hyv : y = vnew := by simpa using hy2
          subst hxv
          subst hyv
          exact Relation.ReflTransGen.refl
      · rw [List.length_append]
        simp only [List.length_cons, List.length_nil]
        omega

/-- Every connected graph on a duplicate-free nonempty node list contains a
spanning tree: a duplicate-free subset of the edges, of size N-1, that still
connects all the nodes. -/
theorem exists_spanning_subset (ns : List String) (es : List Link)
    (hnd : ns.Nodup) (hne : ns ≠ [])
    (hep : ∀ e ∈ es, e.u ∈ ns ∧ e.v ∈ ns) (hconn : ConnectedOn ns es) :
    ∃ t : List Link, (∀ e ∈ t, e ∈ es) ∧ t.Nodup ∧
      t.length + 1 = ns.length ∧ ConnectedOn ns t := by
  obtain ⟨x0, rest, rfl⟩ : ∃ x0 rest, ns = x0 :: rest := by
    rcases ns with - | ⟨a, r⟩
    · exact absurd rfl hne
    · exact ⟨a, r, rfl⟩
  apply grow (x0 :: rest) es hnd hep hconn rest.length [x0] []
  · simp
  · intro z hz
    have : z = x0 := by simpa using hz
    simp [this]
  · simp
  · intro e he
    simp at he
  · simp
  · intro e he
    simp at he
  · rfl
  · intro x hx y hy
    have hx0 : x = x0 := by simpa using hx
    have hy0 : y = x0 := by simpa using hy
    rw [hx0, hy0]
    exact Relation.ReflTransGen.refl
  · simp only [List.length_cons, List.length_nil]
    omega

theorem foldl_min_mem {α : Type} (f : α → Nat) :
    ∀ (xs : List α) (b : α),
      xs.foldl (fun b y => if f y < f b then y else b) b = b ∨
      xs.foldl (fun b y => if f y < f b then y else b) b ∈ xs
  | [], _ => Or.inl rfl
  | x :: xs, b => by
      rw [List.foldl_cons]
      rcases foldl_min_mem f xs (if f x < f b then x else b) with h | h
      · rw [h]
        by_cases hc : f x < f b
        · rw [if_pos hc]
          exact Or.inr (by simp)
        · rw [if_neg hc]
          exact Or.inl rfl
      · exact Or.inr (by simp [h])

theorem foldl_min_le {α : Type} (f : α → Nat) :
    ∀ (xs : List α) (b : α),
      f (xs.foldl (fun b y => if f y < f b then y else b) b) ≤ f b ∧
      ∀ y ∈ xs, f (xs.foldl (fun b y => if f y < f b then y else b) b) ≤ f y
  | [], b => ⟨le_refl _, by simp⟩
  | x :: xs, b => by
      rw [List.foldl_cons]
      have ih := foldl_min_le f xs (if f x < f b then x else b)
      have hb : f (if f x < f b then x else b) ≤ f b := by
        by_cases hc : f x < f b
        · rw [if_pos hc]
          omega
        · rw [if_neg hc]
      have hx : f (if f x < f b then x else b) ≤ f x := by
        by_cases hc : f x < f b
        · rw [if_pos hc]
        · rw [if_neg hc]
          omega
      refine ⟨le_trans ih.1 hb, ?_⟩
      intro y hy
      rcases List.mem_cons.1 hy with rfl | hyx
      · exact le_trans ih.1 hx
      · exact ih.2 y hyx

theorem pickMin_spec {α : Type} (f : α → Nat) :
    ∀ (l : List α) (m : α), pickMin f l = some m →
      m ∈ l ∧ ∀ y ∈ l, f m ≤ f y
  | [], m, h => by simp [pickMin] at h
  | x :: xs, m, h => by
      have hm : xs.foldl (fun b y => if f y < f b then y else b) x = m := by
        simpa [pickMin] using h
      constructor
      · rcases foldl_min_mem f xs x with h2 | h2
        · rw [← hm, h2]
          simp
        · rw [← hm]
          simp [h2]
      · intro y hy
        rcases List.mem_cons.1 hy with rfl | hyx
        · rw [← hm]
          exact (foldl_min_le f xs y).1
        · rw [← hm]
          exact (foldl_min_le f xs x).2 y hyx

/-- C5: (spec-modelled) for every connected weighted graph on a
duplicate-free nonempty node list, `minimumSpanningTree` returns a set of
tree edges (a sublist of the edges, connected, of size N-1) and its total
cost, and that cost is less than or equal to the cost of every other
spanning tree of the same graph. -/
theorem C5_mst_correct (ns : List String) (es : List Link)
    (hnd : ns.Nodup) (hne : ns ≠ [])
    (hep : ∀ e ∈ es, e.u ∈ ns ∧ e.v ∈ ns)
    (hconn : ConnectedOn ns es) :
    ∃ t c, minimumSpanningTree ns es = some (t, c) ∧
      t.Sublist es ∧ ConnectedOn ns t ∧ t.length + 1 = ns.length ∧
      c = treeCost t ∧
      ∀ t2, t2.Sublist es → ConnectedOn ns t2 → t2.length + 1 = ns.length →
        c ≤ treeCost t2 := by
  obtain ⟨t0, ht0sub, ht0nd, ht0len, ht0conn⟩ :=
    exists_spanning_subset ns es hnd hne hep hconn
  obtain ⟨t1, ht1perm, ht1sl⟩ := ht0nd.subperm ht0sub
  have ht1conn : ConnectedOn ns t1 := by
    intro x hx y hy
    exact reach_mono (fun e he2 => ht1perm.mem_iff.2 he2) (ht0conn x hx y hy)
  have ht1len : t1.length + 1 = ns.length := by
    rw [ht1perm.length_eq]
    exact ht0len
  have ht1mem : t1 ∈ es.sublists.filter (fun t => isSpanningTreeB ns t) := by
    apply List.mem_filter.2
    refine ⟨List.mem_sublists.2 ht1sl, ?_⟩
    show isSpanningTreeB ns t1 = true
    unfold isSpanningTreeB
    rw [Bool.and_eq_true]
    exact ⟨(connectedB_iff ns t1).2 ht1conn, by simp [ht1len]⟩
  rcases hc : pickMin treeCost
      (es.sublists.filter (fun t => isSpanningTreeB ns t)) with - | m
  · exfalso
    rcases hq : es.sublists.filter (fun t => isSpanningTreeB ns t)
        with - | ⟨c0, cr⟩
    · rw [hq] at ht1mem
      simp at ht1mem
    · rw [hq] at hc
      simp [pickMin] at hc
  · have hspec := pickMin_spec treeCost _ m hc
    have hmf := List.mem_filter.1 hspec.1
    have hmsl : m.Sublist es := List.mem_sublists.1 hmf.1
    have hmB : isSpanningTreeB ns m = true := hmf.2
    unfold isSpanningTreeB at hmB
    rw [Bool.and_eq_true] at hmB
    refine ⟨m, treeCost m, ?_, hmsl, (connectedB_iff ns m).1 hmB.1,
      by simpa using hmB.2, rfl, ?_⟩
    · unfold minimumSpanningTree
      rw [hc]
      rfl
    · intro t2 ht2sl ht2conn ht2len
      apply hspec.2
      apply List.mem_filter.2
      refine ⟨List.mem_sublists.2 ht2sl, ?_⟩
      show isSpanningTreeB ns t2 = true
      unfold isSpanningTreeB
      rw [Bool.and_eq_true]
      exact ⟨(connectedB_iff ns t2).2 ht2conn, by simp [ht2len]⟩

/-- C5 witness: the two spec scenarios.  The weight-5 triangle has MST cost
10 and the three-leaf star has MST cost 3; the triangle instantiates the
correctness theorem. -/
theorem C5_witness :
    minimumSpanningTree ["A", "B", "C"]
        [⟨"A", "B", 5⟩, ⟨"B", "C", 5⟩, ⟨"A", "C", 5⟩] =
      some ([⟨"A", "B", 5⟩, ⟨"B", "C", 5⟩], 10) ∧
    minimumSpanningTree ["Hub", "L1", "L2", "L3"]
        (buildG [⟨"Hub", "L1", 1⟩, ⟨"Hub", "L2", 1⟩, ⟨"Hub", "L3", 1⟩]) =
      some ([⟨"Hub", "L1", 1⟩, ⟨"Hub", "L2", 1⟩, ⟨"Hub", "L3", 1⟩], 3) ∧
    (∃ t c, minimumSpanningTree ["A", "B", "C"]
        [⟨"A", "B", 5⟩, ⟨"B", "C", 5⟩, ⟨"A", "C", 5⟩] = some (t, c) ∧
      t.Sublist [⟨"A", "B", 5⟩, ⟨"B", "C", 5⟩, ⟨"A", "C", 5⟩] ∧
      ConnectedOn ["A", "B", "C"] t ∧
      t.length + 1 = (["A", "B", "C"] : List String).length ∧
      c = treeCost t ∧
      ∀ t2, t2.Sublist [⟨"A", "B", 5⟩, ⟨"B", "C", 5⟩, ⟨"A", "C", 5⟩] →
        ConnectedOn ["A", "B", "C"] t2 →
        t2.length + 1 = (["A", "B", "C"] : List String).length →
        c ≤ treeCost t2) :=
  ⟨by decide, by decide,
   C5_mst_correct ["A", "B", "C"]
     [⟨"A", "B", 5⟩, ⟨"B", "C", 5⟩, ⟨"A", "C", 5⟩]
     (by decide) (by decide) (by decide)
     ((connectedB_iff ["A", "B", "C"]
       [⟨"A", "B", 5⟩, ⟨"B", "C", 5⟩, ⟨"A", "C", 5⟩]).1 (by decide))⟩

theorem insertAll_sound (x : String) :
    ∀ (r q : List String), q ∈ insertAll x r → List.Perm q (x :: r)
  | [], q, h => by
      have hq : q = [x] := by simpa [insertAll] using h
      rw [hq]
  | y :: ys, q, h => by
      rw [insertAll] at h
      rcases List.mem_cons.1 h with rfl | h2
      · rfl
      · rcases List.mem_map.1 h2 with ⟨q2, hq2, rfl⟩
        have ih := insertAll_sound x ys q2 hq2
        exact (ih.cons y).trans (List.Perm.swap x y ys)

theorem insertAll_complete (x : String) :
    ∀ (q1 q2 : List String), q1 ++ x :: q2 ∈ insertAll x (q1 ++ q2)
  | [], q2 => by
      rcases q2 with - | ⟨y, ys⟩
      · simp [insertAll]
      · rw [List.nil_append, List.nil_append, insertAll]
        simp
  | a :: q1, q2 => by
      rw [List.cons_append, insertAll]
      exact List.mem_cons_of_mem _
        (List.mem_map.2 ⟨q1 ++ x :: q2, insertAll_complete x q1 q2, rfl⟩)

theorem perm_of_mem_perms :
    ∀ (l q : List String), q ∈ perms l → List.Perm q l
  | [], q, h => by
      have hq : q = [] := by simpa [perms] using h
      rw [hq]
  | x :: xs, q, h => by
      rw [perms] at h
      rcases List.mem_flatMap.1 h with ⟨r, hr, hq⟩
      exact (insertAll_sound x r q hq).trans
        ((perm_of_mem_perms xs r hr).cons x)

theorem first_split {x : String} :
    ∀ {q : List String}, x ∈ q →
      ∃ q1 q2, q = q1 ++ x :: q2 ∧ x ∉ q1
  | a :: q, hx => by
      by_cases hax : a = x
      · exact ⟨[], q, by simp [hax], by simp⟩
      · have hxq : x ∈ q := by
          rcases List.mem_cons.1 hx with h | h
          · exact absurd h.symm hax
          · exact h
        obtain ⟨q1, q2, heq, hnx⟩ := first_split hxq
        refine ⟨a :: q1, q2, by simp [heq], ?_⟩
        intro hc
        rcases List.mem_cons.1 hc with h | h
        · exact hax h.symm
        · exact hnx h

theorem mem_perms_of_perm :
    ∀ (l q : List String), List.Perm q l → q ∈ perms l
  | [], q, h => by
      have hq : q = [] := h.eq_nil
      simp [hq, perms]
  | x :: xs, q, h => by
      have hx : x ∈ q := h.mem_iff.2 (by simp)
      obtain ⟨q1, q2, rfl, hnx⟩ := first_split hx
      have herase : List.Perm (q1 ++ q2) xs := by
        have h1 := h.erase x
        rw [List.erase_append_right _ hnx, List.erase_cons_head,
            List.erase_cons_head] at h1
        exact h1
      rw [perms]
      exact List.mem_flatMap.2
        ⟨q1 ++ q2, mem_perms_of_perm xs (q1 ++ q2) herase,
         insertAll_complete x q1 q2⟩

theorem weightOf_isSome (es : List Link) (x y : String)
    (h : adjB es x y = true) : (weightOf es x y).isSome := by
  unfold weightOf adjB at *
  rw [List.any_eq_true] at h
  rcases hf : List.find?
      (fun e => e.u == x && e.v == y || e.u == y && e.v == x) es with - | e
  · rw [List.find?_eq_none] at hf
    obtain ⟨e, he, hp⟩ := h
    exact absurd hp (by simpa using hf e he)
  · simp [hf]

theorem mapM_eq_some_of_isSome {α : Type} (f : α → Option Nat) :
    ∀ l : List α, (∀ a ∈ l, (f a).isSome) →
      l.mapM f = some (l.map (fun a => (f a).getD 0))
  | [], _ => rfl
  | a :: l, h => by
      have ha := h a (by simp)
      obtain ⟨b, hb⟩ := Option.isSome_iff_exists.1 ha
      have ih := mapM_eq_some_of_isSome f l (fun a2 ha2 => h a2 (by simp [ha2]))
      rw [List.mapM_cons, ih, hb]
      simp [Option.bind, hb]

theorem tourCost_eq_some (es : List Link) (p : List String)
    (hadj : ∀ q ∈ consecPairs p, adjB es q.1 q.2 = true) :
    tourCost es p = some (tourCostD es p) := by
  unfold tourCost tourCostD
  rw [mapM_eq_some_of_isSome _ _
    (fun q hq => weightOf_isSome es q.1 q.2 (hadj q hq))]
  rfl

/-- C6 counterexample: the three-leaf star is connected with N = 4 ≥ 3, but
it admits no Hamiltonian cycle at all (every closed tour must revisit the
hub), so no tour visiting every node exactly once can be returned: the
modelled `computeTour` returns `none` and the enumeration of Hamiltonian
cycles is empty. -/
theorem C6_cex :
    connectedB ["Hub", "L1", "L2", "L3"]
        (starLinks "Hub" ["L1", "L2", "L3"] 1) = true ∧
    3 ≤ (["Hub", "L1", "L2", "L3"] : List String).length ∧
    hamTours ["Hub", "L1", "L2", "L3"]
        (starLinks "Hub" ["L1", "L2", "L3"] 1) = [] ∧
    computeTour ["Hub", "L1", "L2", "L3"]
        (starLinks "Hub" ["L1", "L2", "L3"] 1) = none := by
  decide

/-- C6 (amended, spec-modelled): whenever `computeTour` returns a tour, the
tour is a closed Hamiltonian cycle — a permutation of the node list followed
by its own first element, with every hop an edge — its reported cost is
exactly the sum of the stored edge weights between consecutive tour nodes
(every lookup succeeding), and that cost is minimal over all Hamiltonian
cycles, hence at least the exact optimum. -/
theorem C6_tour_correct (ns : List String) (es : List Link)
    (p : List String) (c : Nat) (h3 : 3 ≤ ns.length)
    (hres : computeTour ns es = some (p, c)) :
    (∃ q, List.Perm q ns ∧ q ≠ [] ∧ p = q ++ q.take 1) ∧
    p.head? = p.getLast? ∧
    (∀ q ∈ consecPairs p, adjB es q.1 q.2 = true) ∧
    tourCost es p = some c ∧
    c = tourCostD es p ∧
    (∀ p2 ∈ hamTours ns es, c ≤ tourCostD es p2) := by
  unfold computeTour at hres
  rcases hq : pickMin (tourCostD es) (hamTours ns es) with - | m
  · rw [hq] at hres
    exact absurd hres (by simp)
  · rw [hq] at hres
    have hpm : m = p ∧ tourCostD es m = c := by
      have hinj : (m, tourCostD es m) = (p, c) := Option.some.inj hres
      exact ⟨congrArg Prod.fst hinj, congrArg Prod.snd hinj⟩
    obtain ⟨rfl, hcost⟩ := hpm
    have hspec := pickMin_spec (tourCostD es) _ m hq
    have hmem := hspec.1
    unfold hamTours at hmem
    have hmf := List.mem_filter.1 hmem
    obtain ⟨q, hqperm, hqp⟩ := List.mem_map.1 hmf.1
    have hperm : List.Perm q ns := perm_of_mem_perms ns q hqperm
    have hqne : q ≠ [] := by
      intro hqe
      subst hqe
      have := hperm.length_eq
      simp at this
      omega
    have hadjall : ∀ q2 ∈ consecPairs m, adjB es q2.1 q2.2 = true := by
      have hall := hmf.2
      rw [List.all_eq_true] at hall
      intro q2 hq2
      exact hall q2 hq2
    obtain ⟨a, q2, rfl⟩ : ∃ a q2, q = a :: q2 := by
      rcases q with - | ⟨a, q2⟩
      · exact absurd rfl hqne
      · exact ⟨a, q2, rfl⟩
    refine ⟨⟨a :: q2, hperm, hqne, hqp.symm⟩, ?_, hadjall,
      tourCost_eq_some es m hadjall ▸ by rw [hcost], hcost.symm, ?_⟩
    · rw [← hqp]
      have htake : (a :: q2).take 1 = [a] := rfl
      rw [htake]
      have hh : ((a :: q2) ++ [a]).head? = some a := rfl
      rw [hh, List.getLast?_concat]
    · intro p2 hp2
      rw [← hcost]
      exact hspec.2 p2 hp2

/-- C6 witness: on the weight-5 triangle the modelled tour is
A ➔ B ➔ C ➔ A with reported cost 15 = 5+5+5, and it satisfies every clause
of the amended statement. -/
theorem C6_witness :
    computeTour ["A", "B", "C"] [⟨"A", "B", 5⟩, ⟨"B", "C", 5⟩, ⟨"A", "C", 5⟩] =
      some (["A", "B", "C", "A"], 15) ∧
    ((∃ q, List.Perm q ["A", "B", "C"] ∧ q ≠ [] ∧
        (["A", "B", "C", "A"] : List String) = q ++ q.take 1) ∧
     (["A", "B", "C", "A"] : List String).head? =
       (["A", "B", "C", "A"] : List String).getLast? ∧
     (∀ q ∈ consecPairs ["A", "B", "C", "A"],
        adjB [⟨"A", "B", 5⟩, ⟨"B", "C", 5⟩, ⟨"A", "C", 5⟩] q.1 q.2 = true) ∧
     tourCost [⟨"A", "B", 5⟩, ⟨"B", "C", 5⟩, ⟨"A", "C", 5⟩]
        ["A", "B", "C", "A"] = some 15 ∧
     (15 : Nat) = tourCostD [⟨"A", "B", 5⟩, ⟨"B", "C", 5⟩, ⟨"A", "C", 5⟩]
        ["A", "B", "C", "A"] ∧
     (∀ p2 ∈ hamTours ["A", "B", "C"]
          [⟨"A", "B", 5⟩, ⟨"B", "C", 5⟩, ⟨"A", "C", 5⟩],
        15 ≤ tourCostD [⟨"A", "B", 5⟩, ⟨"B", "C", 5⟩, ⟨"A", "C", 5⟩] p2)) :=
  ⟨by decide,
   C6_tour_correct ["A", "B", "C"] [⟨"A", "B", 5⟩, ⟨"B", "C", 5⟩, ⟨"A", "C", 5⟩]
     ["A", "B", "C", "A"] 15 (by decide) (by decide)⟩
